import Mathlib

/-!
# Verification of the PowerDNS zone reconciliation engine

A shallow embedding of `scripts/upsert-records.py`: the script reads a desired
record configuration for one DNS zone, fetches the remote zone state over HTTP,
and computes a patch list (REPLACE/DELETE) to reconcile the two, guarded by an
ownership scheme encoded in TXT marker records.

Python dicts are modelled as association lists with Python-dict update
semantics (an existing key keeps its position, a new key is appended), strings
as Lean `String` (a structure over `List Char`, matching Python's sequence of
code points for the ASCII data handled here), and raised exceptions as
`Except` errors.  The two HTTP calls are the system's only I/O boundaries;
they are modelled as a list of network-call events produced by a run.

Every definition up to `run_main` is translated from the source file; the only
exception is `apply_patches`, which models the patch-application semantics
stated by the idempotence claim itself (the remote server's behaviour is
outside the repository).
-/

namespace Upsert

instance {ε α : Type} [DecidableEq ε] [DecidableEq α] : DecidableEq (Except ε α) := fun a b =>
  match a, b with
  | .ok x, .ok y =>
    if h : x = y then isTrue (by rw [h]) else isFalse (by intro hc; cases hc; exact h rfl)
  | .error x, .error y =>
    if h : x = y then isTrue (by rw [h]) else isFalse (by intro hc; cases hc; exact h rfl)
  | .ok _, .error _ => isFalse (by intro hc; cases hc)
  | .error _, .ok _ => isFalse (by intro hc; cases hc)

/-- A JSON scalar, as found in the record items of the input file. -/
inductive JVal where
  | str (s : String)
  | num (n : Int)
  | bool (b : Bool)
deriving DecidableEq

/-- A record item: a JSON object, i.e. an ordered list of key/value pairs
(`{"c": ..., "r": ...}` or `{"t": ...}`, possibly with stray keys). -/
abbrev Item := List (String × JVal)

def itemHas (item : Item) (k : String) : Bool :=
  item.any (fun kv => decide (kv.1 = k))

/-- `item[k]`; all call sites are guarded by `itemHas`, so the fallback for a
missing key (Python would raise `KeyError`) is never reached. -/
def itemGet (item : Item) (k : String) : JVal :=
  match item.find? (fun kv => decide (kv.1 = k)) with
  | some kv => kv.2
  | none => JVal.str ""

def itemKeys (item : Item) : List String := item.map Prod.fst

/-- Python truthiness of a JSON scalar, for `bool(item["r"])`. -/
def truthy : JVal → Bool
  | JVal.bool b => b
  | JVal.num n => decide (n ≠ 0)
  | JVal.str s => decide (s ≠ "")

/-- Python `int(...)` on a JSON scalar.  TTL values are integers in practice
(the input format gives `{"t": <int>}`); the string fallback approximates
Python's parse and is unreached by the claims. -/
def jvalInt : JVal → Int
  | JVal.num n => n
  | JVal.bool b => if b then 1 else 0
  | JVal.str s => (s.toInt?).getD 0

/-- Record contents are strings in the documented input format and in the
PowerDNS API responses; non-string scalars are rendered as Python would. -/
def jvalStr : JVal → String
  | JVal.str s => s
  | JVal.num n => toString n
  | JVal.bool b => if b then "True" else "False"

/-- One content record of an RRset: `{"content": ..., "disabled": ...}`, plus
the optional `"set-ptr"` key (present only when the item carried `"r"`). -/
structure DnsRecord where
  content : String
  disabled : Bool
  setPtr : Option Bool := none
deriving DecidableEq

/-- An RRset as understood by the PowerDNS API.  `comments` is `none` when the
JSON object has no `"comments"` key. -/
structure RRset where
  name : String
  type : String
  records : List DnsRecord
  ttl : Int
  comments : Option (List String) := none
deriving DecidableEq

abbrev Key := String × String

/-- A Python dict keyed by `(name, type)`, as an insertion-ordered
association list. -/
abbrev ZoneIndex := List (Key × RRset)

def dictLookup : ZoneIndex → Key → Option RRset
  | [], _ => none
  | kv :: rest, k => if kv.1 = k then some kv.2 else dictLookup rest k

def dictContains (m : ZoneIndex) (k : Key) : Bool := (dictLookup m k).isSome

/-- Python dict assignment: an existing key keeps its position and gets the
new value, a fresh key is appended at the end. -/
def dictInsert (k : Key) (v : RRset) : ZoneIndex → ZoneIndex
  | [] => [(k, v)]
  | kv :: rest => if kv.1 = k then (k, v) :: rest else kv :: dictInsert k v rest

/-- In-place mutation of the value stored under `k`. -/
def dictModify (k : Key) (f : RRset → RRset) (m : ZoneIndex) : ZoneIndex :=
  m.map (fun kv => if kv.1 = k then (kv.1, f kv.2) else kv)

def dictRemove (k : Key) : ZoneIndex → ZoneIndex
  | [] => []
  | kv :: rest => if kv.1 = k then dictRemove k rest else kv :: dictRemove k rest

def dictKeys (m : ZoneIndex) : List Key := m.map Prod.fst

def dictValues (m : ZoneIndex) : List RRset := m.map Prod.snd

/-! ## String primitives (Python `str` operations over code points) -/

def spaceChar : Char := Char.ofNat 32

/-- `isPre p s` is Python `s.startswith(p)` on the underlying char lists. -/
def isPre : List Char → List Char → Bool
  | [], _ => true
  | _ :: _, [] => false
  | p :: ps, s :: ss => decide (p = s) && isPre ps ss

def sStartsWith (s p : String) : Bool := isPre p.data s.data

def sLen (s : String) : Nat := s.data.length

def sDrop (s : String) (n : Nat) : String := String.mk (s.data.drop n)

/-- Python `s.split(" ")` (explicit single-character separator, which keeps
empty fields). -/
def splitChars : List Char → List (List Char)
  | [] => [[]]
  | c :: cs =>
    match splitChars cs with
    | [] => [[]]
    | t :: ts => if c = spaceChar then [] :: t :: ts else (c :: t) :: ts

def pySplit (s : String) : List String := (splitChars s.data).map String.mk

/-- Python `" ".join(l)`. -/
def joinChars : List (List Char) → List Char
  | [] => []
  | [t] => t
  | t :: t2 :: ts => t ++ spaceChar :: joinChars (t2 :: ts)

def joinSpace (l : List String) : String := String.mk (joinChars (l.map String.data))

/-- Python string `<=`: lexicographic comparison by code point. -/
def lexLe : List Char → List Char → Bool
  | [], _ => true
  | _ :: _, [] => false
  | a :: as, b :: bs => if a = b then lexLe as bs else decide (a < b)

def recLe (a b : DnsRecord) : Prop := lexLe a.content.data b.content.data = true

instance : DecidableRel recLe := fun _ _ => instDecidableEqBool _ _

/-- Python `list.sort(key=lambda record: record["content"])`: a stable
ascending sort by content (Timsort is stable; insertion sort with a non-strict
comparison matches it). -/
def sortRecords (l : List DnsRecord) : List DnsRecord := List.insertionSort recLe l

/-- `normalized_rrset` (source lines 148-157) as a pure function: comments
removed, records sorted by content. -/
def normalized_rrset (r : RRset) : RRset :=
  { r with comments := none, records := sortRecords r.records }

/-- The RRset object observed *after* `normalized_rrset(rrset)` ran on it:
`copy.copy` shares the `records` list, so the in-place `.sort` reorders the
original RRset's records, while its `comments` entry (removed only on the
copy) is untouched.  This is the object the REPLACE patch is built from. -/
def replacedRRset (r : RRset) : RRset :=
  { r with records := sortRecords r.records }

/-! ## Errors raised by the script -/

inductive Err where
  | illegalKeys (name rtype : String)
  | duplicateTTL (name rtype : String)
  | zoneNoSOA
  | soaNoRecords
  | soaMultiRecords
  | indexOut
  | heritageBadType (t : String)
  | ownershipConflict
deriving DecidableEq

/-! ## Record-Set Builder (`make_rrset`, `make_rrsets`, lines 160-225) -/

def illegalLine (k : String) : String := "Illegal key: " ++ k

/-- One iteration of the item loop of `make_rrset` (lines 198-219): state is
the accumulated records list and the optional TTL directive already seen;
errors carry the stderr lines printed before the raise. -/
def make_rrset_step (name rtype : String) (st : List DnsRecord × Option JVal) (item : Item) :
    Except (Err × List String) (List DnsRecord × Option JVal) :=
  if itemHas item "c" then
    let illegal := (itemKeys item).filter (fun k => decide (¬ k ∈ (["c", "r"] : List String)))
    if illegal.isEmpty then
      Except.ok
        (st.1 ++ [{ content := jvalStr (itemGet item "c"), disabled := false,
                    setPtr := if itemHas item "r" then some (truthy (itemGet item "r")) else none }],
         st.2)
    else Except.error (Err.illegalKeys name rtype, illegal.map illegalLine)
  else if itemHas item "t" then
    let illegal := (itemKeys item).filter (fun k => decide (¬ k = "t"))
    if illegal.isEmpty then
      match st.2 with
      | some _ => Except.error (Err.duplicateTTL name rtype, [])
      | none => Except.ok (st.1, some (itemGet item "t"))
    else Except.error (Err.illegalKeys name rtype, illegal.map illegalLine)
  else Except.ok st

def make_rrset_items (name rtype : String) (items : List Item) :
    Except (Err × List String) (List DnsRecord × Option JVal) :=
  items.foldlM (make_rrset_step name rtype) ([], none)

/-- `make_rrset` (lines 180-225). -/
def make_rrset (domain rtype : String) (item_list : List Item) (default_ttl : Int) :
    Except (Err × List String) RRset := do
  let name := domain ++ "."
  let st ← make_rrset_items name rtype item_list
  pure { name := name, type := rtype, records := st.1,
         ttl := match st.2 with | some v => jvalInt v | none => default_ttl,
         comments := none }

def indexAcc (m : ZoneIndex) (r : RRset) : ZoneIndex := dictInsert (r.name, r.type) r m

/-- `index_rrsets` (lines 228-232). -/
def index_rrsets (l : List RRset) : ZoneIndex :=
  l.foldl indexAcc []

/-- The decoded `zone["records"]` value: an ordered mapping from domain to an
ordered mapping from record type to an item list. -/
abbrev ZoneRecords := List (String × List (String × List Item))

/-- The inner loop body of `make_rrsets`: one `(record_type, item_list)`
pair of one domain. -/
def makeInner (domain : String) (default_ttl : Int) (acc : List RRset)
    (tv : String × List Item) : Except (Err × List String) (List RRset) := do
  let r ← make_rrset domain tv.1 tv.2 default_ttl
  pure (acc ++ [r])

/-- The outer loop body of `make_rrsets`: one domain with its per-type map. -/
def makeOuter (default_ttl : Int) (acc : List RRset)
    (dv : String × List (String × List Item)) : Except (Err × List String) (List RRset) :=
  dv.2.foldlM (makeInner dv.1 default_ttl) acc

/-- `make_rrsets` (lines 160-177). -/
def make_rrsets (records : ZoneRecords) (default_ttl : Int) :
    Except (Err × List String) ZoneIndex := do
  let rl ← records.foldlM (makeOuter default_ttl) ([] : List RRset)
  pure (index_rrsets rl)

/-! ## SOA Serial Resolver (`extract_soa`, `patch_soa`, lines 235-285) -/

/-- `extract_soa` (lines 265-285). -/
def extract_soa (rrsets : ZoneIndex) (zone_id : String) : Except Err String :=
  match dictLookup rrsets (zone_id ++ ".", "SOA") with
  | none => Except.error Err.zoneNoSOA
  | some rrset =>
    match rrset.records with
    | [] => Except.error Err.soaNoRecords
    | [r] => Except.ok r.content
    | _ :: _ :: _ => Except.error Err.soaMultiRecords

/-- The per-RRset effect of the write loop of `patch_soa` (lines 259-261):
every RRset of type SOA gets its first record's content overwritten
(`records[0]` raises `IndexError` when the list is empty). -/
def adjustSOA (c : String) (v : RRset) : Option RRset :=
  if v.type = "SOA" then
    match v.records with
    | [] => none
    | r :: rest => some { v with records := { r with content := c } :: rest }
  else some v

def set_soa (m : ZoneIndex) (c : String) : Except Err ZoneIndex :=
  m.mapM (fun kv =>
    match adjustSOA c kv.2 with
    | none => Except.error Err.indexOut
    | some v => Except.ok (kv.1, v))

/-- `patch_soa` (lines 235-262).  `copy.deepcopy` makes the write loop act on
a fresh structure, so the pure model just rebuilds the dict. -/
def patch_soa (dst src : ZoneIndex) (zone_id : String) : Except Err ZoneIndex := do
  let dst_soa ← extract_soa dst zone_id
  let src_soa ← extract_soa src zone_id
  let tokens := pySplit dst_soa
  match tokens.get? 2 with
  | none => Except.error Err.indexOut
  | some tk =>
    if tk = "AUTO" then
      match (pySplit src_soa).get? 2 with
      | none => Except.error Err.indexOut
      | some sk => set_soa dst (joinSpace (tokens.set 2 sk))
    else set_soa dst (joinSpace tokens)

/-! ## Ownership Tracker (lines 288-332) -/

def markerPre : String := "_ansible-pdns-api."

def heritagePre : String := "\"heritage=ansible-pdns-api,type="

def quoteStr : String := "\""

def heritageContent (t : String) : String := heritagePre ++ t ++ quoteStr

def heritageRec (t : String) : DnsRecord :=
  { content := heritageContent t, disabled := false, setPtr := none }

/-- `record["content"][len(record_prefix):-len(record_suffix)]`. -/
def ownedTypeOf (content : String) : String :=
  String.mk ((content.data.drop (sLen heritagePre)).dropLast)

def malformedLine (rr : RRset) (r : DnsRecord) : String :=
  "WARNING: Malformed heritage record: " ++ rr.name ++ " " ++ rr.type ++ " " ++ r.content

/-- One iteration of the record loop at lines 322-331: `name` is the marker
name with the prefix stripped. -/
def ownedStep (rrset : RRset) (name : String) (acc : List Key × List String) (r : DnsRecord) :
    List Key × List String :=
  if !(sStartsWith r.content heritagePre) || !(sStartsWith r.content quoteStr) then
    (acc.1, acc.2 ++ [malformedLine rrset r])
  else
    (acc.1 ++ [(name, ownedTypeOf r.content)], acc.2)

/-- The body of `get_owned_keys_from_rrset` after its type guard. -/
def ownedOfTXT (rrset : RRset) : List Key × List String :=
  if sStartsWith rrset.name markerPre then
    rrset.records.foldl (ownedStep rrset (sDrop rrset.name (sLen markerPre)))
      ([(rrset.name, "TXT")], [])
  else ([], [])

/-- `get_owned_keys_from_rrset` (lines 304-332), including the slip at line
323: the second check is `content.startswith(record_suffix)` — `startswith`,
not `endswith`, of the closing quote — translated verbatim.  Returns the
owned keys and the warning lines printed. -/
def get_owned_keys_from_rrset (rrset : RRset) : Except Err (List Key × List String) :=
  if rrset.type = "TXT" then Except.ok (ownedOfTXT rrset)
  else Except.error (Err.heritageBadType rrset.type)

def ownedAcc (acc : List Key × List String) (kv : Key × RRset) : List Key × List String :=
  if kv.2.type = "TXT" then
    match get_owned_keys_from_rrset kv.2 with
    | Except.ok (ks, ws) => (acc.1 ++ ks, acc.2 ++ ws)
    | Except.error _ => acc
  else acc

/-- `get_owned_keys_from_rrsets` (lines 288-301).  The owned *set* is kept as
a list and consumed only through membership; the error branch of the callee
is unreachable because of the `type == "TXT"` guard. -/
def get_owned_keys_from_rrsets (rrsets : ZoneIndex) : List Key × List String :=
  rrsets.foldl ownedAcc ([], [])

/-! ## Heritage Annotator (`add_heritage_records`, lines 335-366) -/

def emptyMarker (hname : String) (default_ttl : Int) : RRset :=
  { name := hname, type := "TXT", records := [], ttl := default_ttl, comments := none }

def add_heritage_step (default_ttl : Int) (ext : ZoneIndex) (kv : Key × RRset) : ZoneIndex :=
  let hname := markerPre ++ kv.2.name
  let key : Key := (hname, "TXT")
  let ext1 := if dictContains ext key then ext else dictInsert key (emptyMarker hname default_ttl) ext
  dictModify key (fun r => { r with records := r.records ++ [heritageRec kv.2.type] }) ext1

/-- `add_heritage_records` (lines 335-366): iterates over the *input* dict
while checking/extending the shallow copy. -/
def add_heritage_records (rrsets : ZoneIndex) (default_ttl : Int) : ZoneIndex :=
  rrsets.foldl (add_heritage_step default_ttl) rrsets

/-! ## Diff & Conflict Engine and the main flow (lines 43-91) -/

inductive Patch where
  | replace (rrset : RRset)
  | delete (name rtype : String)
deriving DecidableEq

/-- The comprehension filter at line 56. -/
def conflictPred (remote : ZoneIndex) (owned : List Key) (kv : Key × RRset) : Bool :=
  dictContains remote kv.1 && decide (¬ kv.1 ∈ owned) &&
    decide (¬ kv.1.2 ∈ (["NS", "SOA"] : List String))

def conflicting_rrset_list (target remote : ZoneIndex) (owned : List Key) : List (Key × RRset) :=
  target.filter (conflictPred remote owned)

/-- The stderr block printed for one conflicting key (lines 58-70); the
`none` branch is unreachable because a conflicting key is in `remote`. -/
def conflict_block (remote : ZoneIndex) (kv : Key × RRset) : List String :=
  kv.2.records.map (fun r =>
    "Could not write record: " ++ kv.2.name ++ " " ++ kv.2.type ++ " " ++ r.content)
  ++ (match dictLookup remote kv.1 with
      | some rr => rr.records.map (fun r =>
          " Hint: Would overwrite: " ++ kv.2.name ++ " " ++ kv.2.type ++ " " ++ r.content)
      | none => [])

/-- The REPLACE decision for one desired entry (lines 73-78).  Evaluating
the condition calls `normalized_rrset(rrset)`, whose in-place sort reorders
the target RRset's records, so the emitted dict
`{**rrset, "changetype": "REPLACE"}` carries the *sorted* records
(`replacedRRset`). -/
def replaceDecision (remote : ZoneIndex) (kv : Key × RRset) : Option Patch :=
  if normalized_rrset kv.2 ∈ dictValues remote then none
  else some (Patch.replace (replacedRRset kv.2))

/-- The DELETE decision for one remote entry (lines 79-86). -/
def deleteDecision (target : ZoneIndex) (owned : List Key) (kv : Key × RRset) : Option Patch :=
  if kv.1 ∈ owned ∧ dictContains target kv.1 = false
  then some (Patch.delete kv.2.name kv.2.type) else none

/-- The patch list (lines 73-86): REPLACE entries, then DELETE entries. -/
def rrset_patches (target remote : ZoneIndex) (owned : List Key) : List Patch :=
  target.filterMap (replaceDecision remote) ++ remote.filterMap (deleteDecision target owned)

/-- The pure core of `main` after the remote state has been fetched (lines
45-91, up to the PATCH decision): result and accumulated stderr lines (the
request trace lines, which only echo CLI arguments, are not modelled). -/
def reconcile (records : ZoneRecords) (defaultTTL : Int) (remote : ZoneIndex)
    (zone_id : String) : Except Err (List Patch) × List String :=
  match make_rrsets records defaultTTL with
  | Except.error (e, lines) => (Except.error e, lines)
  | Except.ok desired =>
    match patch_soa desired remote zone_id with
    | Except.error e => (Except.error e, [])
    | Except.ok patched =>
      let target := add_heritage_records patched defaultTTL
      let ow := get_owned_keys_from_rrsets remote
      let conflicts := conflicting_rrset_list target remote ow.1
      if conflicts.isEmpty then
        (Except.ok (rrset_patches target remote ow.1), ow.2)
      else
        (Except.error Err.ownershipConflict, ow.2 ++ conflicts.flatMap (conflict_block remote))

/-- `http_get_rrsets` (lines 102-121) minus the HTTP transport: the fetched
RRset list is normalized and indexed. -/
def fetch_index (remoteList : List RRset) : ZoneIndex :=
  index_rrsets (remoteList.map normalized_rrset)

/-- A network call made by `main`: the GET of the zone, or the PATCH carrying
the computed patch list. -/
inductive NetCall where
  | get
  | patch (body : List Patch)
deriving DecidableEq

/-- `main` (lines 10-91): the GET happens first (line 43), the desired state
is then built and reconciled, and a PATCH is sent only for a non-empty patch
list (line 88).  Returns the network calls in order, the stderr lines, and
the fatal error if one was raised. -/
def run_main (records : ZoneRecords) (defaultTTL : Int) (remoteList : List RRset)
    (zone_id : String) : List NetCall × List String × Option Err :=
  let remote := fetch_index remoteList
  match reconcile records defaultTTL remote zone_id with
  | (Except.error e, lines) => ([NetCall.get], lines, some e)
  | (Except.ok ps, lines) =>
    (NetCall.get :: (if ps.isEmpty then [] else [NetCall.patch ps]), lines, none)

def patchKey : Patch → Key
  | Patch.replace r => (r.name, r.type)
  | Patch.delete n t => (n, t)

def applyOne (z : ZoneIndex) (p : Patch) : ZoneIndex :=
  match p with
  | Patch.replace r => dictInsert (r.name, r.type) r z
  | Patch.delete n t => dictRemove (n, t) z

/-- Modelled from the spec: the idempotence property defines patch
application on the remote state as "each REPLACE installing the carried RRset
under its (name, type) key, each DELETE removing its key"; the PowerDNS
server implementing this is outside the repository. -/
def apply_patches (ps : List Patch) (remote : ZoneIndex) : ZoneIndex :=
  ps.foldl applyOne remote

/-! ## Concrete inputs used by counterexamples and witnesses -/

def exSoaRemote : RRset :=
  { name := "example.com.", type := "SOA",
    records := [{ content := "ns. host. 5 6 7", disabled := false }], ttl := 3600 }

def exForeignA : RRset :=
  { name := "w.example.com.", type := "A",
    records := [{ content := "1.2.3.4", disabled := false }], ttl := 3600 }

/-- A remote zone: its SOA, plus a foreign A record without any marker. -/
def exRemoteList : List RRset := [exSoaRemote, exForeignA]

/-- A valid desired configuration (one SOA RRset with one record, literal
serial) that hand-writes a heritage marker TXT record claiming the remote's
foreign key `(w.example.com., A)`. -/
def exCfgMarker : ZoneRecords :=
  [("example.com", [("SOA", [[("c", JVal.str "ns. host. 9 6 7")]])]),
   ("_ansible-pdns-api.w.example.com",
     [("TXT", [[("c", JVal.str "\"heritage=ansible-pdns-api,type=A\"")]])])]

/-- The patch list the first run computes for `exCfgMarker`. -/
def exPatchesMarker : List Patch :=
  [Patch.replace
    { name := "example.com.", type := "SOA",
      records := [{ content := "ns. host. 9 6 7", disabled := false }], ttl := 3600 },
   Patch.replace
    { name := "_ansible-pdns-api.w.example.com.", type := "TXT",
      records := [{ content := "\"heritage=ansible-pdns-api,type=A\"", disabled := false }],
      ttl := 3600 },
   Patch.replace
    { name := "_ansible-pdns-api.example.com.", type := "TXT",
      records := [{ content := "\"heritage=ansible-pdns-api,type=SOA\"", disabled := false }],
      ttl := 3600 },
   Patch.replace
    { name := "_ansible-pdns-api._ansible-pdns-api.w.example.com.", type := "TXT",
      records := [{ content := "\"heritage=ansible-pdns-api,type=TXT\"", disabled := false }],
      ttl := 3600 }]

/-- A desired configuration with one SOA RRset (literal serial) and no
marker-named RRset. -/
def exCfgSimple : ZoneRecords :=
  [("example.com", [("SOA", [[("c", JVal.str "ns. hm. 9 6 7")]])])]

/-- `make_rrsets exCfgSimple 3600`. -/
def exDesiredSimple : ZoneIndex :=
  [(("example.com.", "SOA"),
    { name := "example.com.", type := "SOA",
      records := [{ content := "ns. hm. 9 6 7", disabled := false }], ttl := 3600 })]

/-- The patch list the first run computes for `exCfgSimple`. -/
def exPatchesSimple : List Patch :=
  [Patch.replace
    { name := "example.com.", type := "SOA",
      records := [{ content := "ns. hm. 9 6 7", disabled := false }], ttl := 3600 },
   Patch.replace
    { name := "_ansible-pdns-api.example.com.", type := "TXT",
      records := [{ content := "\"heritage=ansible-pdns-api,type=SOA\"", disabled := false }],
      ttl := 3600 }]

/-- A content item carrying the stray key `"x"` (the spec's example
`{"c": "1.2.3.4", "x": 1}`). -/
def exCfgIllegal : ZoneRecords :=
  [("www", [("A", [[("c", JVal.str "1.2.3.4"), ("x", JVal.num 1)]])])]

/-- A heritage record content missing the closing quote: it starts with the
heritage prefix but matches no `heritage=ansible-pdns-api,type=<TYPE>`
pattern. -/
def exMalformedContent : String := "\"heritage=ansible-pdns-api,type=A"

/-- A marker TXT RRset whose single content record is `exMalformedContent`. -/
def exMarkerNoClose : RRset :=
  { name := "_ansible-pdns-api.host.example.com.", type := "TXT",
    records := [{ content := exMalformedContent, disabled := false }], ttl := 300 }

def exRecA : DnsRecord := { content := "1.1.1.1", disabled := false }

def exRecB : DnsRecord := { content := "2.2.2.2", disabled := false }

/-- A desired RRset whose records are deliberately not in sorted order. -/
def exRRsetBA : RRset :=
  { name := "m.example.com.", type := "A", records := [exRecB, exRecA], ttl := 60 }

/-- A desired configuration that collides with the unowned remote
`(www.example.com., A)` RRset. -/
def exCfgConflict : ZoneRecords :=
  [("example.com", [("SOA", [[("c", JVal.str "ns. hm. 9 6 7")]])]),
   ("www.example.com", [("A", [[("c", JVal.str "9.9.9.9")], [("c", JVal.str "8.8.8.8")]])])]

def exRemoteConflict : List RRset :=
  [exSoaRemote,
   { name := "www.example.com.", type := "A",
     records := [{ content := "7.7.7.7", disabled := false }], ttl := 600 }]

/-- `make_rrsets exCfgConflict 300`; `patch_soa` returns it unchanged since
the serial is literal. -/
def exDesiredConflict : ZoneIndex :=
  [(("example.com.", "SOA"),
    { name := "example.com.", type := "SOA",
      records := [{ content := "ns. hm. 9 6 7", disabled := false }], ttl := 300 }),
   (("www.example.com.", "A"),
    { name := "www.example.com.", type := "A",
      records := [{ content := "9.9.9.9", disabled := false },
                  { content := "8.8.8.8", disabled := false }], ttl := 300 })]

def exOldA : RRset :=
  { name := "old.example.com.", type := "A",
    records := [{ content := "5.5.5.5", disabled := false }], ttl := 600 }

/-- A remote index owning `(old.example.com., A)` (stale) next to a foreign
record, for the deletion-scope witness. -/
def exRemoteDel : ZoneIndex :=
  [(("old.example.com.", "A"), exOldA),
   (("foreign.example.com.", "A"),
    { name := "foreign.example.com.", type := "A",
      records := [{ content := "6.6.6.6", disabled := false }], ttl := 600 })]

/-- A desired SOA whose serial token is the `AUTO` sentinel. -/
def exDstAuto : ZoneIndex :=
  [(("z.example.", "SOA"),
    { name := "z.example.", type := "SOA",
      records := [{ content := "a.z.example. b.z.example. AUTO 120 60", disabled := false }],
      ttl := 300 }),
   (("x.z.example.", "A"),
    { name := "x.z.example.", type := "A",
      records := [{ content := "4.4.4.4", disabled := false }], ttl := 300 })]

/-- The matching remote index carrying the authoritative serial. -/
def exSrcAuto : ZoneIndex :=
  [(("z.example.", "SOA"),
    { name := "z.example.", type := "SOA",
      records := [{ content := "a.z.example. b.z.example. 2024010100 7 7", disabled := false }],
      ttl := 9 })]

/-! ## Dictionary lemmas -/

theorem dictLookup_insert (k : Key) (v : RRset) (m : ZoneIndex) (k2 : Key) :
    dictLookup (dictInsert k v m) k2 = if k2 = k then some v else dictLookup m k2 := by
  induction m with
  | nil =>
    simp only [dictInsert, dictLookup]
    split_ifs <;> first | rfl | simp_all
  | cons kv rest ih =>
    simp only [dictInsert]
    by_cases h : kv.1 = k
    · rw [if_pos h]
      clear ih
      simp only [dictLookup]
      split_ifs <;> first | rfl | simp_all
    · rw [if_neg h]
      simp only [dictLookup, ih]
      split_ifs <;> first | rfl | simp_all

theorem dictLookup_remove (k : Key) (m : ZoneIndex) (k2 : Key) :
    dictLookup (dictRemove k m) k2 = if k2 = k then none else dictLookup m k2 := by
  induction m with
  | nil => simp [dictRemove, dictLookup]
  | cons kv rest ih =>
    simp only [dictRemove]
    by_cases h : kv.1 = k
    · rw [if_pos h, ih]
      simp only [dictLookup]
      split_ifs <;> first | rfl | simp_all
    · rw [if_neg h]
      simp only [dictLookup, ih]
      split_ifs <;> first | rfl | simp_all

theorem dictLookup_modify (k : Key) (f : RRset → RRset) (m : ZoneIndex) (k2 : Key) :
    dictLookup (dictModify k f m) k2 =
      if k2 = k then (dictLookup m k).map f else dictLookup m k2 := by
  induction m with
  | nil => simp [dictModify, dictLookup]
  | cons kv rest ih =>
    simp only [dictModify, List.map_cons]
    by_cases h : kv.1 = k
    · rw [if_pos h]
      simp only [dictLookup]
      have ih2 := ih
      simp only [dictModify] at ih2
      rw [ih2]
      split_ifs <;> first | rfl | simp_all
    · rw [if_neg h]
      simp only [dictLookup]
      have ih2 := ih
      simp only [dictModify] at ih2
      rw [ih2]
      split_ifs <;> first | rfl | simp_all

theorem mem_of_dictLookup {m : ZoneIndex} {k : Key} {v : RRset}
    (h : dictLookup m k = some v) : (k, v) ∈ m := by
  induction m with
  | nil => simp [dictLookup] at h
  | cons kv rest ih =>
    simp only [dictLookup] at h
    by_cases hk : kv.1 = k
    · subst hk
      rw [if_pos rfl] at h
      cases h
      simp
    · rw [if_neg hk] at h
      exact List.mem_cons_of_mem _ (ih h)

theorem dictLookup_of_mem {m : ZoneIndex} {k : Key} {v : RRset}
    (h : (k, v) ∈ m) (hnd : (m.map Prod.fst).Nodup) : dictLookup m k = some v := by
  induction m with
  | nil => simp at h
  | cons kv rest ih =>
    simp only [List.map, List.nodup_cons] at hnd
    rcases List.mem_cons.mp h with h1 | h1
    · cases h1
      simp [dictLookup]
    · have hk : kv.1 ≠ k := by
        intro hh
        exact hnd.1 (hh ▸ (List.mem_map.mpr ⟨(k, v), h1, rfl⟩))
      simp only [dictLookup, if_neg hk]
      exact ih h1 hnd.2

theorem mem_keys_of_dictLookup {m : ZoneIndex} {k : Key} {v : RRset}
    (h : dictLookup m k = some v) : k ∈ dictKeys m :=
  List.mem_map.mpr ⟨(k, v), mem_of_dictLookup h, rfl⟩

theorem exists_dictLookup_of_mem_keys {m : ZoneIndex} {k : Key}
    (h : k ∈ dictKeys m) : ∃ v, dictLookup m k = some v := by
  induction m with
  | nil => simp [dictKeys] at h
  | cons kv rest ih =>
    simp only [dictLookup]
    by_cases hk : kv.1 = k
    · exact ⟨kv.2, by rw [if_pos hk]⟩
    · rw [if_neg hk]
      rcases List.mem_map.mp h with ⟨kv2, hm, he⟩
      rcases List.mem_cons.mp hm with h1 | h1
      · exact absurd (h1 ▸ he) hk
      · exact ih (List.mem_map.mpr ⟨kv2, h1, he⟩)

theorem dictLookup_eq_none {m : ZoneIndex} {k : Key}
    (h : k ∉ dictKeys m) : dictLookup m k = none := by
  cases hl : dictLookup m k with
  | none => rfl
  | some v => exact absurd (mem_keys_of_dictLookup hl) h

theorem dictContains_iff {m : ZoneIndex} {k : Key} :
    dictContains m k = true ↔ k ∈ dictKeys m := by
  constructor
  · intro h
    rcases Option.isSome_iff_exists.mp h with ⟨v, hv⟩
    exact mem_keys_of_dictLookup hv
  · intro h
    rcases exists_dictLookup_of_mem_keys h with ⟨v, hv⟩
    simp [dictContains, hv]

theorem dictContains_eq_false {m : ZoneIndex} {k : Key} :
    dictContains m k = false ↔ k ∉ dictKeys m := by
  rw [← Bool.not_eq_true, not_iff_not]
  exact dictContains_iff

theorem mem_values_of_dictLookup {m : ZoneIndex} {k : Key} {v : RRset}
    (h : dictLookup m k = some v) : v ∈ dictValues m :=
  List.mem_map.mpr ⟨(k, v), mem_of_dictLookup h, rfl⟩

theorem mem_dictInsert {m : ZoneIndex} {k : Key} {v : RRset} {kv2 : Key × RRset}
    (h : kv2 ∈ dictInsert k v m) : kv2 = (k, v) ∨ kv2 ∈ m := by
  induction m with
  | nil => simpa [dictInsert] using h
  | cons kv rest ih =>
    simp only [dictInsert] at h
    by_cases hk : kv.1 = k
    · rw [if_pos hk] at h
      rcases List.mem_cons.mp h with h1 | h1
      · exact Or.inl h1
      · exact Or.inr (List.mem_cons_of_mem _ h1)
    · rw [if_neg hk] at h
      rcases List.mem_cons.mp h with h1 | h1
      · exact Or.inr (h1 ▸ List.mem_cons_self _ _)
      · rcases ih h1 with h2 | h2
        · exact Or.inl h2
        · exact Or.inr (List.mem_cons_of_mem _ h2)

theorem mem_dictModify {m : ZoneIndex} {k : Key} {f : RRset → RRset} {kv2 : Key × RRset}
    (h : kv2 ∈ dictModify k f m) :
    ∃ kv ∈ m, kv2 = if kv.1 = k then (kv.1, f kv.2) else kv := by
  rcases List.mem_map.mp h with ⟨kv, hm, he⟩
  exact ⟨kv, hm, he.symm⟩

theorem keys_dictModify (k : Key) (f : RRset → RRset) (m : ZoneIndex) :
    dictKeys (dictModify k f m) = dictKeys m := by
  simp only [dictKeys, dictModify, List.map_map]
  congr 1
  funext kv
  by_cases h : kv.1 = k <;> simp [h]

theorem nodup_keys_dictInsert {m : ZoneIndex} {k : Key} {v : RRset}
    (h : (dictKeys m).Nodup) : (dictKeys (dictInsert k v m)).Nodup := by
  induction m with
  | nil => simp [dictInsert, dictKeys]
  | cons kv rest ih =>
    simp only [dictKeys, List.map, List.nodup_cons] at h
    by_cases hk : kv.1 = k
    · subst hk
      simpa [dictInsert, dictKeys, List.nodup_cons] using h
    · simp only [dictInsert, if_neg hk, dictKeys, List.map, List.nodup_cons]
      refine ⟨fun hc => ?_, ih h.2⟩
      rcases List.mem_map.mp hc with ⟨kv2, hm2, he2⟩
      rcases mem_dictInsert hm2 with h2 | h2
      · exact hk (by rw [← he2, h2])
      · exact h.1 (List.mem_map.mpr ⟨kv2, h2, he2⟩)

theorem mem_dictRemove {m : ZoneIndex} {k : Key} {kv2 : Key × RRset}
    (h : kv2 ∈ dictRemove k m) : kv2 ∈ m := by
  induction m with
  | nil => simp [dictRemove] at h
  | cons kv rest ih =>
    simp only [dictRemove] at h
    by_cases hk : kv.1 = k
    · rw [if_pos hk] at h
      exact List.mem_cons_of_mem _ (ih h)
    · rw [if_neg hk] at h
      rcases List.mem_cons.mp h with h1 | h1
      · exact h1 ▸ List.mem_cons_self _ _
      · exact List.mem_cons_of_mem _ (ih h1)

theorem nodup_keys_dictRemove {m : ZoneIndex} {k : Key}
    (h : (dictKeys m).Nodup) : (dictKeys (dictRemove k m)).Nodup := by
  induction m with
  | nil => simp [dictRemove, dictKeys]
  | cons kv rest ih =>
    simp only [dictKeys, List.map, List.nodup_cons] at h
    simp only [dictRemove]
    by_cases hk : kv.1 = k
    · rw [if_pos hk]
      exact ih h.2
    · rw [if_neg hk]
      simp only [dictKeys, List.map, List.nodup_cons]
      refine ⟨fun hc => ?_, ih h.2⟩
      rcases List.mem_map.mp hc with ⟨kv2, hm2, he2⟩
      exact h.1 (List.mem_map.mpr ⟨kv2, mem_dictRemove hm2, he2⟩)

theorem nodup_keys_dictModify {m : ZoneIndex} {k : Key} {f : RRset → RRset}
    (h : (dictKeys m).Nodup) : (dictKeys (dictModify k f m)).Nodup := by
  rw [keys_dictModify]; exact h

/-! ## String lemmas -/

theorem isPre_self_append (p r : List Char) : isPre p (p ++ r) = true := by
  induction p with
  | nil => rfl
  | cons c cs ih => simp [isPre, ih]

theorem isPre_trans {q p s : List Char} (h1 : isPre q p = true) (h2 : isPre p s = true) :
    isPre q s = true := by
  induction q generalizing p s with
  | nil => rfl
  | cons c qs ih =>
    cases p with
    | nil => simp [isPre] at h1
    | cons d ps =>
      cases s with
      | nil => simp [isPre] at h2
      | cons e ss =>
        simp only [isPre, Bool.and_eq_true, decide_eq_true_eq] at h1 h2 ⊢
        exact ⟨h1.1.trans h2.1, ih h1.2 h2.2⟩

theorem sStartsWith_self_append (p s : String) : sStartsWith (p ++ s) p = true := by
  simpa [sStartsWith, String.data_append] using isPre_self_append p.data s.data

theorem sDrop_self_append (p s : String) : sDrop (p ++ s) (sLen p) = s := by
  simp only [sDrop, sLen, String.data_append, List.drop_left]

theorem heritageContent_data (t : String) :
    (heritageContent t).data = heritagePre.data ++ (t.data ++ [Char.ofNat 34]) := by
  simp only [heritageContent, String.data_append, List.append_assoc]
  rfl

theorem ownedTypeOf_heritageContent (t : String) : ownedTypeOf (heritageContent t) = t := by
  simp only [ownedTypeOf, heritageContent_data, sLen, List.drop_left, List.dropLast_concat]

theorem heritage_starts_pre (t : String) :
    sStartsWith (heritageContent t) heritagePre = true := by
  simp only [sStartsWith, heritageContent_data]
  exact isPre_self_append _ _

theorem heritage_starts_quote (t : String) :
    sStartsWith (heritageContent t) quoteStr = true := by
  have h1 : isPre quoteStr.data heritagePre.data = true := by decide
  exact isPre_trans h1 (heritage_starts_pre t)

/-! ## Sorting lemmas -/

theorem sortRecords_perm (l : List DnsRecord) : List.Perm (sortRecords l) l :=
  List.perm_insertionSort _ l

theorem mem_sortRecords {l : List DnsRecord} {r : DnsRecord} :
    r ∈ sortRecords l ↔ r ∈ l :=
  (sortRecords_perm l).mem_iff

/-! ## Index lemmas -/

theorem mem_indexAcc_fold {l : List RRset} {m : ZoneIndex} {kv : Key × RRset}
    (h : kv ∈ l.foldl indexAcc m) : kv ∈ m ∨ ∃ r ∈ l, kv = ((r.name, r.type), r) := by
  induction l generalizing m with
  | nil => exact Or.inl h
  | cons r rest ih =>
    rw [List.foldl_cons] at h
    rcases ih h with h1 | h1
    · rcases mem_dictInsert h1 with h2 | h2
      · exact Or.inr ⟨r, List.mem_cons_self _ _, h2⟩
      · exact Or.inl h2
    · rcases h1 with ⟨r2, hr2, he⟩
      exact Or.inr ⟨r2, List.mem_cons_of_mem _ hr2, he⟩

theorem index_rrsets_wf {l : List RRset} {kv : Key × RRset}
    (h : kv ∈ index_rrsets l) : kv.1 = (kv.2.name, kv.2.type) ∧ kv.2 ∈ l := by
  rcases mem_indexAcc_fold h with h1 | h1
  · simp at h1
  · rcases h1 with ⟨r, hr, he⟩
    subst he
    exact ⟨rfl, hr⟩

theorem nodup_keys_indexAcc_fold {l : List RRset} {m : ZoneIndex}
    (h : (dictKeys m).Nodup) : (dictKeys (l.foldl indexAcc m)).Nodup := by
  induction l generalizing m with
  | nil => exact h
  | cons r rest ih =>
    rw [List.foldl_cons]
    exact ih (nodup_keys_dictInsert h)

theorem nodup_keys_index_rrsets (l : List RRset) : (dictKeys (index_rrsets l)).Nodup :=
  nodup_keys_indexAcc_fold (by simp [dictKeys])

/-! ## Record-Set Builder lemmas -/

theorem make_rrset_ok_fields {domain rtype : String} {items : List Item} {ttl : Int} {r : RRset}
    (h : make_rrset domain rtype items ttl = Except.ok r) :
    r.name = domain ++ "." ∧ r.type = rtype ∧ r.comments = none := by
  cases hi : make_rrset_items (domain ++ ".") rtype items with
  | error e =>
    rw [make_rrset, hi] at h
    simp [Bind.bind, Except.bind] at h
  | ok st =>
    rw [make_rrset, hi] at h
    simp only [Bind.bind, Except.bind, pure, Except.pure, Except.ok.injEq] at h
    subst h
    exact ⟨rfl, rfl, rfl⟩

theorem makeInner_fold_mem {domain : String} {ttl : Int} :
    ∀ {tl : List (String × List Item)} {acc rl : List RRset},
      tl.foldlM (makeInner domain ttl) acc = Except.ok rl →
      ∀ r ∈ rl, r ∈ acc ∨ ∃ tv ∈ tl, make_rrset domain tv.1 tv.2 ttl = Except.ok r := by
  intro tl
  induction tl with
  | nil =>
    intro acc rl h r hr
    simp only [List.foldlM_nil, pure, Except.pure, Except.ok.injEq] at h
    exact Or.inl (h ▸ hr)
  | cons tv rest ih =>
    intro acc rl h r hr
    rw [List.foldlM_cons] at h
    cases hm : make_rrset domain tv.1 tv.2 ttl with
    | error e =>
      rw [makeInner, hm] at h
      simp [Bind.bind, Except.bind] at h
    | ok r0 =>
      have hstep : makeInner domain ttl acc tv = Except.ok (acc ++ [r0]) := by
        rw [makeInner, hm]; rfl
      rw [hstep] at h
      simp only [Bind.bind, Except.bind] at h
      rcases ih h r hr with h1 | h1
      · rcases List.mem_append.mp h1 with h2 | h2
        · exact Or.inl h2
        · have : r = r0 := by simpa using h2
          exact Or.inr ⟨tv, List.mem_cons_self _ _, this ▸ hm⟩
      · rcases h1 with ⟨tv2, htv2, he⟩
        exact Or.inr ⟨tv2, List.mem_cons_of_mem _ htv2, he⟩

theorem makeOuter_fold_mem {ttl : Int} :
    ∀ {rs : ZoneRecords} {acc rl : List RRset},
      rs.foldlM (makeOuter ttl) acc = Except.ok rl →
      ∀ r ∈ rl, r ∈ acc ∨ ∃ dv ∈ rs, ∃ tv ∈ dv.2, make_rrset dv.1 tv.1 tv.2 ttl = Except.ok r := by
  intro rs
  induction rs with
  | nil =>
    intro acc rl h r hr
    simp only [List.foldlM_nil, pure, Except.pure, Except.ok.injEq] at h
    exact Or.inl (h ▸ hr)
  | cons dv rest ih =>
    intro acc rl h r hr
    rw [List.foldlM_cons] at h
    cases hm : makeOuter ttl acc dv with
    | error e =>
      rw [hm] at h
      simp [Bind.bind, Except.bind] at h
    | ok acc1 =>
      rw [hm] at h
      simp only [Bind.bind, Except.bind] at h
      rcases ih h r hr with h1 | h1
      · rcases makeInner_fold_mem hm r h1 with h2 | h2
        · exact Or.inl h2
        · rcases h2 with ⟨tv, htv, he⟩
          exact Or.inr ⟨dv, List.mem_cons_self _ _, tv, htv, he⟩
      · rcases h1 with ⟨dv2, hdv2, tv2, htv2, he⟩
        exact Or.inr ⟨dv2, List.mem_cons_of_mem _ hdv2, tv2, htv2, he⟩

theorem make_rrsets_entry {records : ZoneRecords} {ttl : Int} {m : ZoneIndex}
    (h : make_rrsets records ttl = Except.ok m) :
    ∀ kv ∈ m, kv.1 = (kv.2.name, kv.2.type) ∧ kv.2.comments = none ∧
      ∃ dv ∈ records, kv.2.name = dv.1 ++ "." := by
  intro kv hkv
  cases hf : records.foldlM (makeOuter ttl) ([] : List RRset) with
  | error e =>
    rw [make_rrsets, hf] at h
    simp [Bind.bind, Except.bind] at h
  | ok rl =>
    rw [make_rrsets, hf] at h
    simp only [Bind.bind, Except.bind, pure, Except.pure, Except.ok.injEq] at h
    subst h
    obtain ⟨hwf, hmem⟩ := index_rrsets_wf hkv
    rcases makeOuter_fold_mem hf kv.2 hmem with h1 | h1
    · simp at h1
    · rcases h1 with ⟨dv, hdv, tv, _, he⟩
      obtain ⟨hn, _, hc⟩ := make_rrset_ok_fields he
      exact ⟨hwf, hc, dv, hdv, hn⟩

theorem make_rrsets_nodup_keys {records : ZoneRecords} {ttl : Int} {m : ZoneIndex}
    (h : make_rrsets records ttl = Except.ok m) : (dictKeys m).Nodup := by
  cases hf : records.foldlM (makeOuter ttl) ([] : List RRset) with
  | error e =>
    rw [make_rrsets, hf] at h
    simp [Bind.bind, Except.bind] at h
  | ok rl =>
    rw [make_rrsets, hf] at h
    simp only [Bind.bind, Except.bind, pure, Except.pure, Except.ok.injEq] at h
    exact h ▸ nodup_keys_index_rrsets rl

/-! ## C10: items with neither "c" nor "t" are silently ignored -/

theorem make_rrset_step_skip {name rtype : String} {item : Item}
    (h1 : itemHas item "c" = false) (h2 : itemHas item "t" = false)
    (st : List DnsRecord × Option JVal) :
    make_rrset_step name rtype st item = Except.ok st := by
  rw [make_rrset_step, if_neg (by simp [h1]), if_neg (by simp [h2])]

theorem make_rrset_items_fold_skip {name rtype : String} {item : Item}
    (h1 : itemHas item "c" = false) (h2 : itemHas item "t" = false) (l2 : List Item) :
    ∀ (l1 : List Item) (st : List DnsRecord × Option JVal),
      (l1 ++ item :: l2).foldlM (make_rrset_step name rtype) st =
        (l1 ++ l2).foldlM (make_rrset_step name rtype) st := by
  intro l1
  induction l1 with
  | nil =>
    intro st
    simp only [List.nil_append, List.foldlM_cons, make_rrset_step_skip h1 h2]
    rfl
  | cons a rest ih =>
    intro st
    simp only [List.cons_append, List.foldlM_cons]
    cases hs : make_rrset_step name rtype st a with
    | error e => rfl
    | ok st2 => simp only [Bind.bind, Except.bind, ih]

/-- C10: in the Record-Set Builder, a record item containing neither `"c"`
nor `"t"` is silently ignored — building the RRset with the item present
gives exactly the same result (value and printed diagnostics) as building it
with the item removed: no error, no illegal-key check, no content record, no
TTL effect. -/
theorem make_rrset_ignores_keyless_items (domain rtype : String) (l1 l2 : List Item)
    (item : Item) (ttl : Int)
    (h1 : itemHas item "c" = false) (h2 : itemHas item "t" = false) :
    make_rrset domain rtype (l1 ++ item :: l2) ttl = make_rrset domain rtype (l1 ++ l2) ttl := by
  rw [make_rrset, make_rrset, make_rrset_items, make_rrset_items,
    make_rrset_items_fold_skip h1 h2]

/-- Witness for C10 at a concrete input: `{"x": 7}` between two items. -/
theorem make_rrset_ignores_keyless_items_witness :
    make_rrset "www" "A" [[("c", JVal.str "1.2.3.4")], [("x", JVal.num 7)]] 300 =
      make_rrset "www" "A" [[("c", JVal.str "1.2.3.4")]] 300 :=
  make_rrset_ignores_keyless_items "www" "A" [[("c", JVal.str "1.2.3.4")]] []
    [("x", JVal.num 7)] 300 (by decide) (by decide)

/-! ## C5: the Ownership Tracker's malformed-record check -/

/-- C5, code bug at source line 323: the content
`"heritage=ansible-pdns-api,type=A` (no closing quote) matches no
`"heritage=ansible-pdns-api,type=<TYPE>"` pattern, yet the tracker prints no
warning and adds the ownership pair `("host.example.com.", "")` — because the
code tests `content.startswith(record_suffix)` where its own `record_suffix`
name and docstring call for the closing quote at the *end*.  The claim says a
non-matching record is warned about and contributes nothing. -/
theorem owned_keys_startswith_suffix_slip :
    get_owned_keys_from_rrset exMarkerNoClose =
      Except.ok ([("_ansible-pdns-api.host.example.com.", "TXT"), ("host.example.com.", "")], [])
    ∧ (∀ t, exMalformedContent ≠ heritageContent t) := by
  refine ⟨by decide, fun t h => ?_⟩
  have h1 : exMalformedContent.data.getLast? = (heritageContent t).data.getLast? := by rw [h]
  rw [heritageContent_data, ← List.append_assoc, List.getLast?_concat] at h1
  exact absurd h1 (by decide)

/-! ## C6: record order in an emitted REPLACE patch -/

/-- C6, code bug via `normalized_rrset`'s shallow copy (source lines 152-156,
used at line 78): the desired RRset lists its records as
`[2.2.2.2, 1.1.1.1]`, but the emitted REPLACE patch carries them sorted as
`[1.1.1.1, 2.2.2.2]` — the in-place `.sort` on the shared `records` list
reorders the original before `{**rrset, ...}` is built, contradicting the
claim that input order is preserved verbatim in the patch. -/
theorem replace_patch_reorders_records :
    rrset_patches [(("m.example.com.", "A"), exRRsetBA)] [] [] =
      [Patch.replace
        { name := "m.example.com.", type := "A", records := [exRecA, exRecB], ttl := 60 }]
    ∧ exRRsetBA.records = [exRecB, exRecA]
    ∧ ([exRecA, exRecB] : List DnsRecord) ≠ [exRecB, exRecA] :=
  ⟨by decide, rfl, by decide⟩

/-! ## C8: illegal record items versus the network calls -/

/-- Counterexample to C8 as stated: on the spec's own example item
`{"c": "1.2.3.4", "x": 1}` the run does fail with the illegal-key error and
issues no PATCH, but the network-call trace already contains the GET — `main`
fetches the remote zone (line 43) *before* building the desired RRsets
(line 47), so the error cannot precede every network call. -/
theorem illegal_item_after_get :
    run_main exCfgIllegal 300 exRemoteList "example.com" =
      ([NetCall.get], ["Illegal key: x"], some (Err.illegalKeys "www." "A"))
    ∧ ([NetCall.get] : List NetCall) ≠ [] :=
  ⟨by decide, by decide⟩

/-! ## C3: the idempotence counterexample -/

/-- Counterexample to C3 as stated: `exCfgMarker` is a valid desired
configuration (one SOA RRset with one record, literal serial `9`) and
`exRemoteList` a valid remote zone, the first reconciliation computes
`exPatchesMarker` with no conflict, yet recomputing against the patched
remote state emits a DELETE for the remote's foreign `(w.example.com., A)`
key: the hand-written heritage marker in the desired state claims that key,
so the second run sees it as owned, stale, and deletable. -/
theorem reconcile_not_idempotent :
    reconcile exCfgMarker 3600 (fetch_index exRemoteList) "example.com" =
      (Except.ok exPatchesMarker, [])
    ∧ (reconcile exCfgMarker 3600 (apply_patches exPatchesMarker (fetch_index exRemoteList))
        "example.com").1 = Except.ok [Patch.delete "w.example.com." "A"]
    ∧ ([Patch.delete "w.example.com." "A"] : List Patch) ≠ [] :=
  ⟨by decide, by decide, by decide⟩

/-! ## C7: when a REPLACE patch is emitted -/

theorem normalized_eq_of_replaced_eq {a b : RRset} (h : replacedRRset a = replacedRRset b) :
    normalized_rrset a = normalized_rrset b := by
  simp only [replacedRRset, RRset.mk.injEq] at h
  simp only [normalized_rrset, RRset.mk.injEq]
  exact ⟨h.1, h.2.1, h.2.2.1, h.2.2.2.1, trivial⟩

/-- C7: for a desired entry `(key, rrset)` of the target index, a REPLACE
patch for it is emitted if and only if no RRset among the remote index's
values equals the desired RRset after normalization (comments dropped,
records sorted by content); in particular a desired RRset identical to a
remote one up to record order and comments yields no REPLACE patch. -/
theorem replace_patch_iff {target remote : ZoneIndex} {owned : List Key}
    {key : Key} {rrset : RRset} (hmem : (key, rrset) ∈ target) :
    Patch.replace (replacedRRset rrset) ∈ rrset_patches target remote owned ↔
      normalized_rrset rrset ∉ dictValues remote := by
  constructor
  · intro h
    rcases List.mem_append.mp h with h1 | h1
    · rcases List.mem_filterMap.mp h1 with ⟨kv, _, hdec⟩
      rw [replaceDecision] at hdec
      by_cases hc : normalized_rrset kv.2 ∈ dictValues remote
      · rw [if_pos hc] at hdec
        cases hdec
      · rw [if_neg hc] at hdec
        injection hdec with he
        injection he with he2
        rw [← normalized_eq_of_replaced_eq he2]
        exact hc
    · rcases List.mem_filterMap.mp h1 with ⟨kv, _, hdec⟩
      rw [deleteDecision] at hdec
      by_cases hc : kv.1 ∈ owned ∧ dictContains target kv.1 = false
      · rw [if_pos hc] at hdec
        injection hdec with he
        cases he
      · rw [if_neg hc] at hdec
        cases hdec
  · intro h
    refine List.mem_append.mpr (Or.inl (List.mem_filterMap.mpr ⟨(key, rrset), hmem, ?_⟩))
    rw [replaceDecision, if_neg h]

/-- Witness for C7: the unsorted desired RRset against an empty remote index
is emitted as a REPLACE. -/
theorem replace_patch_iff_witness :
    Patch.replace (replacedRRset exRRsetBA) ∈
      rrset_patches [(("m.example.com.", "A"), exRRsetBA)] [] [] :=
  (replace_patch_iff
    (show ((("m.example.com.", "A"), exRRsetBA) ∈ [(("m.example.com.", "A"), exRRsetBA)])
      from by decide)).mpr (by decide)

/-! ## C2: which keys receive a DELETE patch -/

/-- C2: a DELETE patch is emitted exactly for the keys that are present in
the remote index, absent from the (annotated) desired index, and in the
owned-key set; in particular unowned foreign keys are never deleted.  The
well-formedness hypothesis states that remote entries are keyed by their
RRset's name and type, which `index_rrsets` guarantees. -/
theorem delete_patch_iff {target remote : ZoneIndex} {owned : List Key} {n t : String}
    (hwf : ∀ kv ∈ remote, kv.1 = (kv.2.name, kv.2.type)) :
    Patch.delete n t ∈ rrset_patches target remote owned ↔
      ((n, t) ∈ dictKeys remote ∧ (n, t) ∉ dictKeys target ∧ (n, t) ∈ owned) := by
  constructor
  · intro h
    rcases List.mem_append.mp h with h1 | h1
    · rcases List.mem_filterMap.mp h1 with ⟨kv, _, hdec⟩
      rw [replaceDecision] at hdec
      by_cases hc : normalized_rrset kv.2 ∈ dictValues remote
      · rw [if_pos hc] at hdec
        cases hdec
      · rw [if_neg hc] at hdec
        injection hdec with he
        cases he
    · rcases List.mem_filterMap.mp h1 with ⟨kv, hkv, hdec⟩
      rw [deleteDecision] at hdec
      by_cases hc : kv.1 ∈ owned ∧ dictContains target kv.1 = false
      · rw [if_pos hc] at hdec
        injection hdec with he
        injection he with he1 he2
        have hk := hwf kv hkv
        subst he1
        subst he2
        rw [← hk]
        exact ⟨List.mem_map.mpr ⟨kv, hkv, rfl⟩, dictContains_eq_false.mp hc.2, hc.1⟩
      · rw [if_neg hc] at hdec
        cases hdec
  · rintro ⟨h1, h2, h3⟩
    rcases exists_dictLookup_of_mem_keys h1 with ⟨v, hv⟩
    have hm := mem_of_dictLookup hv
    have hwfv := hwf _ hm
    refine List.mem_append.mpr (Or.inr (List.mem_filterMap.mpr ⟨((n, t), v), hm, ?_⟩))
    rw [deleteDecision, if_pos ⟨h3, dictContains_eq_false.mpr h2⟩]
    have hn : v.name = n := by
      have := congrArg Prod.fst hwfv
      exact this.symm
    have ht : v.type = t := by
      have := congrArg Prod.snd hwfv
      exact this.symm
    rw [hn, ht]

/-- Witness for C2 (the spec's deletion-scope scenario): the owned stale key
`(old.example.com., A)` gets a DELETE while the unowned
`(foreign.example.com., A)` does not. -/
theorem delete_patch_iff_witness :
    (Patch.delete "old.example.com." "A" ∈
      rrset_patches exDesiredSimple exRemoteDel [("old.example.com.", "A")])
    ∧ ¬ (Patch.delete "foreign.example.com." "A" ∈
      rrset_patches exDesiredSimple exRemoteDel [("old.example.com.", "A")]) :=
  ⟨(delete_patch_iff (by decide)).mpr (by decide),
   fun h => by
    have := (delete_patch_iff (by decide)).mp h
    exact absurd this.2.2 (by decide)⟩

/-! ## SOA Serial Resolver lemmas -/

theorem set_soa_ok_of {m : ZoneIndex} {c : String}
    (hall : ∀ kv ∈ m, adjustSOA c kv.2 ≠ none) : ∃ out, set_soa m c = Except.ok out := by
  induction m with
  | nil => exact ⟨[], rfl⟩
  | cons kv rest ih =>
    cases ha : adjustSOA c kv.2 with
    | none => exact absurd ha (hall kv (List.mem_cons_self _ _))
    | some v =>
      rcases ih (fun kv2 h2 => hall kv2 (List.mem_cons_of_mem _ h2)) with ⟨out, hout⟩
      refine ⟨(kv.1, v) :: out, ?_⟩
      rw [set_soa, List.mapM_cons, ha]
      rw [set_soa] at hout
      simp only [Bind.bind, Except.bind, hout, pure, Except.pure]

theorem set_soa_cons {kv : Key × RRset} {rest : ZoneIndex} {c : String} {m' : ZoneIndex}
    (h : set_soa (kv :: rest) c = Except.ok m') :
    ∃ v out, adjustSOA c kv.2 = some v ∧ set_soa rest c = Except.ok out ∧
      m' = (kv.1, v) :: out := by
  rw [set_soa, List.mapM_cons] at h
  cases ha : adjustSOA c kv.2 with
  | none => rw [ha] at h; simp [Bind.bind, Except.bind] at h
  | some v =>
    rw [ha] at h
    cases hrest : rest.mapM (fun kv =>
        match adjustSOA c kv.2 with
        | none => Except.error Err.indexOut
        | some v => Except.ok (kv.1, v)) with
    | error e =>
      rw [hrest] at h
      simp [Bind.bind, Except.bind] at h
    | ok out =>
      rw [hrest] at h
      simp only [Bind.bind, Except.bind, pure, Except.pure, Except.ok.injEq] at h
      exact ⟨v, out, rfl, by rw [set_soa, hrest], h.symm⟩

theorem set_soa_lookup {m : ZoneIndex} {c : String} {m' : ZoneIndex}
    (h : set_soa m c = Except.ok m') (k : Key) :
    dictLookup m' k = (dictLookup m k).bind (adjustSOA c) := by
  induction m generalizing m' with
  | nil =>
    have : m' = [] := by
      rw [set_soa, List.mapM_nil] at h
      simpa [pure, Except.pure] using h.symm
    subst this
    rfl
  | cons kv rest ih =>
    rcases set_soa_cons h with ⟨v, out, ha, hrest, he⟩
    subst he
    simp only [dictLookup]
    by_cases hk : kv.1 = k
    · rw [if_pos hk, if_pos hk, Option.some_bind, ha]
    · rw [if_neg hk, if_neg hk, ih hrest]

theorem set_soa_mem {m : ZoneIndex} {c : String} {m' : ZoneIndex}
    (h : set_soa m c = Except.ok m') {kv2 : Key × RRset} (hm : kv2 ∈ m') :
    ∃ v, (kv2.1, v) ∈ m ∧ adjustSOA c v = some kv2.2 := by
  induction m generalizing m' with
  | nil =>
    have : m' = [] := by
      rw [set_soa, List.mapM_nil] at h
      simpa [pure, Except.pure] using h.symm
    subst this
    simp at hm
  | cons kv rest ih =>
    rcases set_soa_cons h with ⟨v, out, ha, hrest, he⟩
    subst he
    rcases List.mem_cons.mp hm with h1 | h1
    · subst h1
      exact ⟨kv.2, List.mem_cons_self _ _, ha⟩
    · rcases ih hrest h1 with ⟨v2, hv2, ha2⟩
      exact ⟨v2, List.mem_cons_of_mem _ hv2, ha2⟩

theorem set_soa_keys {m : ZoneIndex} {c : String} {m' : ZoneIndex}
    (h : set_soa m c = Except.ok m') : dictKeys m' = dictKeys m := by
  induction m generalizing m' with
  | nil =>
    have : m' = [] := by
      rw [set_soa, List.mapM_nil] at h
      simpa [pure, Except.pure] using h.symm
    subst this
    rfl
  | cons kv rest ih =>
    rcases set_soa_cons h with ⟨v, out, ha, hrest, he⟩
    subst he
    simp only [dictKeys, List.map_cons]
    rw [← dictKeys, ← dictKeys, ih hrest]

theorem adjustSOA_of_ne {c : String} {v : RRset} (h : v.type ≠ "SOA") :
    adjustSOA c v = some v := by
  rw [adjustSOA, if_neg h]

/-- C4: for desired and remote indices each holding exactly one SOA RRset
with exactly one record (at the zone apex), `patch_soa` succeeds; the
resulting index carries, under the SOA key, the desired SOA whose single
record content has its third space-separated token replaced by the remote's
third token when it was the literal `AUTO` (all other tokens joined back
unchanged), and every key other than the SOA key maps to exactly the RRset
it had in the input (the input itself, being a deep copy's source, is
untouched in this pure model). -/
theorem patch_soa_spec (dst src : ZoneIndex) (zid : String) (dsoa ssoa : RRset)
    (drec srec : DnsRecord) (dser sser : String)
    (hwf : ∀ kv ∈ dst, kv.1 = (kv.2.name, kv.2.type))
    (hnd : (dictKeys dst).Nodup)
    (hd : dictLookup dst (zid ++ ".", "SOA") = some dsoa)
    (hdr : dsoa.records = [drec])
    (huniq : ∀ kv ∈ dst, kv.2.type = "SOA" → kv.1 = (zid ++ ".", "SOA"))
    (hs : dictLookup src (zid ++ ".", "SOA") = some ssoa)
    (hsr : ssoa.records = [srec])
    (hdt : (pySplit drec.content).get? 2 = some dser)
    (hst : (pySplit srec.content).get? 2 = some sser) :
    ∃ out, patch_soa dst src zid = Except.ok out ∧
      dictLookup out (zid ++ ".", "SOA") = some { dsoa with records :=
        [{ drec with content :=
          if dser = "AUTO" then joinSpace ((pySplit drec.content).set 2 sser)
          else joinSpace (pySplit drec.content) }] } ∧
      ∀ k, k ≠ (zid ++ ".", "SOA") → dictLookup out k = dictLookup dst k := by
  have hde : extract_soa dst zid = Except.ok drec.content := by
    simp [extract_soa, hd, hdr]
  have hse : extract_soa src zid = Except.ok srec.content := by
    simp [extract_soa, hs, hsr]
  have hdtype : dsoa.type = "SOA" := by
    have := hwf _ (mem_of_dictLookup hd)
    exact (congrArg Prod.snd this).symm
  have hall : ∀ kv ∈ dst, adjustSOA
      (if dser = "AUTO" then joinSpace ((pySplit drec.content).set 2 sser)
       else joinSpace (pySplit drec.content)) kv.2 ≠ none := by
    intro kv hkv
    by_cases ht : kv.2.type = "SOA"
    · have hk := huniq kv hkv ht
      have hl : dictLookup dst kv.1 = some kv.2 :=
        dictLookup_of_mem (by simpa using hkv) hnd
      rw [hk, hd] at hl
      cases hl
      rw [adjustSOA, if_pos ht, hdr]
      simp
    · rw [adjustSOA_of_ne ht]
      simp
  rcases set_soa_ok_of hall with ⟨out, hout⟩
  have hps : patch_soa dst src zid = Except.ok out := by
    rw [patch_soa]
    simp only [hde, hse, Bind.bind, Except.bind, hdt]
    by_cases hauto : dser = "AUTO"
    · rw [if_pos hauto, hst]
      rw [if_pos hauto] at hout
      exact hout
    · rw [if_neg hauto]
      rw [if_neg hauto] at hout
      exact hout
  refine ⟨out, hps, ?_, ?_⟩
  · rw [set_soa_lookup hout, hd, Option.some_bind, adjustSOA, if_pos hdtype, hdr]
  · intro k hk
    rw [set_soa_lookup hout]
    cases hl : dictLookup dst k with
    | none => rfl
    | some v =>
      rw [Option.some_bind]
      have hmem := mem_of_dictLookup hl
      by_cases ht : v.type = "SOA"
      · exact absurd (huniq _ hmem ht) hk
      · rw [adjustSOA_of_ne ht]

/-- Witness for C4: the spec's AUTO-substitution example shape. -/
theorem patch_soa_spec_witness :
    ∃ out, patch_soa exDstAuto exSrcAuto "z.example" = Except.ok out ∧
      dictLookup out ("z.example" ++ ".", "SOA") = some
        { name := "z.example.", type := "SOA",
          records := [{ content :=
                          (if "AUTO" = "AUTO" then
                            joinSpace
                              ((pySplit "a.z.example. b.z.example. AUTO 120 60").set
                                2 "2024010100")
                          else joinSpace (pySplit "a.z.example. b.z.example. AUTO 120 60")),
                        disabled := false }],
          ttl := 300 } ∧
      ∀ k, k ≠ ("z.example" ++ ".", "SOA") → dictLookup out k = dictLookup exDstAuto k :=
  patch_soa_spec exDstAuto exSrcAuto "z.example"
    { name := "z.example.", type := "SOA",
      records := [{ content := "a.z.example. b.z.example. AUTO 120 60", disabled := false }],
      ttl := 300 }
    { name := "z.example.", type := "SOA",
      records := [{ content := "a.z.example. b.z.example. 2024010100 7 7", disabled := false }],
      ttl := 9 }
    { content := "a.z.example. b.z.example. AUTO 120 60", disabled := false }
    { content := "a.z.example. b.z.example. 2024010100 7 7", disabled := false }
    "AUTO" "2024010100"
    (by decide) (by decide) (by decide) (by decide) (by decide) (by decide) (by decide)
    (by decide) (by decide)

/-! ## C1: ownership conflicts abort the run -/

/-- C1: when at least one key of the annotated desired index is also present
in the remote index, not in the owned-key set, and of a type other than NS
and SOA, the run makes only the GET network call (no PATCH is issued, so the
remote zone is unchanged), prints — after the ownership warnings — for every
conflicting key one "Could not write record" line per desired content record
followed by one "Would overwrite" hint per remote content record, and fails
with the ownership-conflict error. -/
theorem conflict_aborts (records : ZoneRecords) (ttl : Int) (remoteList : List RRset)
    (zid : String) (d patched : ZoneIndex)
    (hmk : make_rrsets records ttl = Except.ok d)
    (hps : patch_soa d (fetch_index remoteList) zid = Except.ok patched)
    (hconf : ∃ kv ∈ add_heritage_records patched ttl,
      dictContains (fetch_index remoteList) kv.1 = true ∧
      kv.1 ∉ (get_owned_keys_from_rrsets (fetch_index remoteList)).1 ∧
      kv.1.2 ≠ "NS" ∧ kv.1.2 ≠ "SOA") :
    run_main records ttl remoteList zid =
      ([NetCall.get],
       (get_owned_keys_from_rrsets (fetch_index remoteList)).2 ++
         (conflicting_rrset_list (add_heritage_records patched ttl) (fetch_index remoteList)
           (get_owned_keys_from_rrsets (fetch_index remoteList)).1).flatMap
           (conflict_block (fetch_index remoteList)),
       some Err.ownershipConflict) := by
  have hne : conflicting_rrset_list (add_heritage_records patched ttl) (fetch_index remoteList)
      (get_owned_keys_from_rrsets (fetch_index remoteList)).1 ≠ [] := by
    rcases hconf with ⟨kv, hkv, h2, h3, h4, h5⟩
    intro hnil
    have hm : kv ∈ conflicting_rrset_list (add_heritage_records patched ttl)
        (fetch_index remoteList) (get_owned_keys_from_rrsets (fetch_index remoteList)).1 :=
      List.mem_filter.mpr ⟨hkv, by simp [conflictPred, h2, h3, h4, h5]⟩
    rw [hnil] at hm
    simp at hm
  have hie : (conflicting_rrset_list (add_heritage_records patched ttl) (fetch_index remoteList)
      (get_owned_keys_from_rrsets (fetch_index remoteList)).1).isEmpty = false := by
    cases hi : (conflicting_rrset_list (add_heritage_records patched ttl) (fetch_index remoteList)
        (get_owned_keys_from_rrsets (fetch_index remoteList)).1).isEmpty
    · rfl
    · exact absurd (List.isEmpty_iff.mp hi) hne
  rw [run_main]
  simp only [reconcile, hmk, hps, hie]
  rfl

/-- Witness for C1 (the spec's conflict-detection scenario): remote holds an
unowned `(www.example.com., A)` and the desired state also defines it. -/
theorem conflict_aborts_witness :
    run_main exCfgConflict 300 exRemoteConflict "example.com" =
      ([NetCall.get],
       (get_owned_keys_from_rrsets (fetch_index exRemoteConflict)).2 ++
         (conflicting_rrset_list (add_heritage_records exDesiredConflict 300)
           (fetch_index exRemoteConflict)
           (get_owned_keys_from_rrsets (fetch_index exRemoteConflict)).1).flatMap
           (conflict_block (fetch_index exRemoteConflict)),
       some Err.ownershipConflict) :=
  conflict_aborts exCfgConflict 300 exRemoteConflict "example.com"
    exDesiredConflict exDesiredConflict (by decide) (by decide) (by decide)

/-! ## Ownership Tracker lemmas -/

theorem ownedStep_fold_mono {rrset : RRset} {name : String} :
    ∀ {recs : List DnsRecord} {acc : List Key × List String} {x : Key},
      x ∈ acc.1 → x ∈ (recs.foldl (ownedStep rrset name) acc).1 := by
  intro recs
  induction recs with
  | nil => intro acc x hx; exact hx
  | cons r rest ih =>
    intro acc x hx
    rw [List.foldl_cons]
    apply ih
    rw [ownedStep]
    split_ifs
    · exact hx
    · exact List.mem_append_left _ hx

theorem ownedStep_fold_claim {rrset : RRset} {name : String} {r : DnsRecord}
    (hpre : sStartsWith r.content heritagePre = true)
    (hq : sStartsWith r.content quoteStr = true) :
    ∀ {recs : List DnsRecord} {acc : List Key × List String}, r ∈ recs →
      (name, ownedTypeOf r.content) ∈ (recs.foldl (ownedStep rrset name) acc).1 := by
  intro recs
  induction recs with
  | nil => intro acc hr; simp at hr
  | cons r2 rest ih =>
    intro acc hr
    rw [List.foldl_cons]
    rcases List.mem_cons.mp hr with h1 | h1
    · subst h1
      apply ownedStep_fold_mono
      rw [ownedStep, if_neg (by simp [hpre, hq])]
      exact List.mem_append_right _ (by simp)
    · exact ih h1

theorem ownedStep_fold_elim {rrset : RRset} {name : String} :
    ∀ {recs : List DnsRecord} {acc : List Key × List String} {x : Key},
      x ∈ (recs.foldl (ownedStep rrset name) acc).1 →
      x ∈ acc.1 ∨ ∃ r ∈ recs, sStartsWith r.content heritagePre = true ∧
        x = (name, ownedTypeOf r.content) := by
  intro recs
  induction recs with
  | nil => intro acc x hx; exact Or.inl hx
  | cons r rest ih =>
    intro acc x hx
    rw [List.foldl_cons] at hx
    rcases ih hx with h1 | h1
    · rw [ownedStep] at h1
      by_cases hc : (!(sStartsWith r.content heritagePre) || !(sStartsWith r.content quoteStr)) = true
      · rw [if_pos hc] at h1
        exact Or.inl h1
      · rw [if_neg hc] at h1
        rcases List.mem_append.mp h1 with h2 | h2
        · exact Or.inl h2
        · have hx2 : x = (name, ownedTypeOf r.content) := by simpa using h2
          have hpre : sStartsWith r.content heritagePre = true := by
            have hf : (!(sStartsWith r.content heritagePre) ||
                !(sStartsWith r.content quoteStr)) = false := by
              cases hb : (!(sStartsWith r.content heritagePre) ||
                  !(sStartsWith r.content quoteStr))
              · rfl
              · exact absurd hb hc
            rcases Bool.or_eq_false_iff.mp hf with ⟨ha, _⟩
            simpa using ha
          exact Or.inr ⟨r, List.mem_cons_self _ _, hpre, hx2⟩
    · rcases h1 with ⟨r2, hr2, hp2, he2⟩
      exact Or.inr ⟨r2, List.mem_cons_of_mem _ hr2, hp2, he2⟩

theorem ownedOfTXT_self {rrset : RRset} (hn : sStartsWith rrset.name markerPre = true) :
    (rrset.name, "TXT") ∈ (ownedOfTXT rrset).1 := by
  rw [ownedOfTXT, if_pos hn]
  exact ownedStep_fold_mono (by simp)

theorem ownedOfTXT_claim {rrset : RRset} {r : DnsRecord}
    (hn : sStartsWith rrset.name markerPre = true) (hr : r ∈ rrset.records)
    (hpre : sStartsWith r.content heritagePre = true)
    (hq : sStartsWith r.content quoteStr = true) :
    (sDrop rrset.name (sLen markerPre), ownedTypeOf r.content) ∈ (ownedOfTXT rrset).1 := by
  rw [ownedOfTXT, if_pos hn]
  exact ownedStep_fold_claim hpre hq hr

theorem ownedOfTXT_elim {rrset : RRset} {x : Key} (hx : x ∈ (ownedOfTXT rrset).1) :
    sStartsWith rrset.name markerPre = true ∧
      (x = (rrset.name, "TXT") ∨ ∃ r ∈ rrset.records,
        x = (sDrop rrset.name (sLen markerPre), ownedTypeOf r.content)) := by
  rw [ownedOfTXT] at hx
  by_cases hn : sStartsWith rrset.name markerPre = true
  · rw [if_pos hn] at hx
    refine ⟨hn, ?_⟩
    rcases ownedStep_fold_elim hx with h1 | h1
    · exact Or.inl (by simpa using h1)
    · rcases h1 with ⟨r, hr, _, he⟩
      exact Or.inr ⟨r, hr, he⟩
  · rw [if_neg hn] at hx
    simp at hx

theorem ownedAcc_fold_mono :
    ∀ {l : List (Key × RRset)} {acc : List Key × List String} {x : Key},
      x ∈ acc.1 → x ∈ (l.foldl ownedAcc acc).1 := by
  intro l
  induction l with
  | nil => intro acc x hx; exact hx
  | cons kv rest ih =>
    intro acc x hx
    rw [List.foldl_cons]
    apply ih
    rw [ownedAcc]
    split_ifs with ht
    · rw [get_owned_keys_from_rrset, if_pos ht]
      exact List.mem_append_left _ hx
    · exact hx

theorem owned_mem_of_entry {x : Key} :
    ∀ {l : List (Key × RRset)} {acc : List Key × List String} {kv : Key × RRset},
      kv ∈ l → kv.2.type = "TXT" → x ∈ (ownedOfTXT kv.2).1 →
      x ∈ (l.foldl ownedAcc acc).1 := by
  intro l
  induction l with
  | nil => intro acc kv hm; simp at hm
  | cons kv0 rest ih =>
    intro acc kv hm ht hx
    rw [List.foldl_cons]
    rcases List.mem_cons.mp hm with h1 | h1
    · subst h1
      apply ownedAcc_fold_mono
      rw [ownedAcc, if_pos ht, get_owned_keys_from_rrset, if_pos ht]
      exact List.mem_append_right _ hx
    · exact ih h1 ht hx

theorem owned_keys_intro {m : ZoneIndex} {kv : Key × RRset} {x : Key}
    (hm : kv ∈ m) (ht : kv.2.type = "TXT") (hx : x ∈ (ownedOfTXT kv.2).1) :
    x ∈ (get_owned_keys_from_rrsets m).1 :=
  owned_mem_of_entry hm ht hx

theorem owned_keys_elim_fold :
    ∀ {l : List (Key × RRset)} {acc : List Key × List String} {x : Key},
      x ∈ (l.foldl ownedAcc acc).1 →
      x ∈ acc.1 ∨ ∃ kv ∈ l, kv.2.type = "TXT" ∧ x ∈ (ownedOfTXT kv.2).1 := by
  intro l
  induction l with
  | nil => intro acc x hx; exact Or.inl hx
  | cons kv rest ih =>
    intro acc x hx
    rw [List.foldl_cons] at hx
    rcases ih hx with h1 | h1
    · rw [ownedAcc] at h1
      by_cases ht : kv.2.type = "TXT"
      · rw [if_pos ht, get_owned_keys_from_rrset, if_pos ht] at h1
        rcases List.mem_append.mp h1 with h2 | h2
        · exact Or.inl h2
        · exact Or.inr ⟨kv, List.mem_cons_self _ _, ht, h2⟩
      · rw [if_neg ht] at h1
        exact Or.inl h1
    · rcases h1 with ⟨kv2, hkv2, ht2, hx2⟩
      exact Or.inr ⟨kv2, List.mem_cons_of_mem _ hkv2, ht2, hx2⟩

theorem owned_keys_elim {m : ZoneIndex} {x : Key}
    (hx : x ∈ (get_owned_keys_from_rrsets m).1) :
    ∃ kv ∈ m, kv.2.type = "TXT" ∧ x ∈ (ownedOfTXT kv.2).1 := by
  rcases owned_keys_elim_fold hx with h1 | h1
  · simp at h1
  · exact h1

/-! ## Heritage Annotator lemmas -/

theorem wf_add_heritage_step {ttl : Int} {ext : ZoneIndex} {kv0 : Key × RRset}
    (hwf : ∀ kv ∈ ext, kv.1 = (kv.2.name, kv.2.type)) :
    ∀ kv ∈ add_heritage_step ttl ext kv0, kv.1 = (kv.2.name, kv.2.type) := by
  intro kv hkv
  simp only [add_heritage_step] at hkv
  rcases mem_dictModify hkv with ⟨kv2, hkv2, he⟩
  have hwf2 : kv2.1 = (kv2.2.name, kv2.2.type) := by
    by_cases hc : dictContains ext (markerPre ++ kv0.2.name, "TXT") = true
    · rw [if_pos hc] at hkv2
      exact hwf _ hkv2
    · rw [if_neg hc] at hkv2
      rcases mem_dictInsert hkv2 with h2 | h2
      · rw [h2]
        rfl
      · exact hwf _ h2
  by_cases hk : kv2.1 = (markerPre ++ kv0.2.name, "TXT")
  · rw [if_pos hk] at he
    rw [he]
    exact hwf2
  · rw [if_neg hk] at he
    rw [he]
    exact hwf2

theorem wf_heritage_fold {ttl : Int} :
    ∀ {l : List (Key × RRset)} {ext : ZoneIndex},
      (∀ kv ∈ ext, kv.1 = (kv.2.name, kv.2.type)) →
      ∀ kv ∈ l.foldl (add_heritage_step ttl) ext, kv.1 = (kv.2.name, kv.2.type) := by
  intro l
  induction l with
  | nil => intro ext hwf; exact hwf
  | cons kv0 rest ih =>
    intro ext hwf
    rw [List.foldl_cons]
    exact ih (wf_add_heritage_step hwf)

theorem heritage_step_lookup_other {ttl : Int} {ext : ZoneIndex} {kv0 : Key × RRset} {key : Key}
    (hk : key ≠ (markerPre ++ kv0.2.name, "TXT")) :
    dictLookup (add_heritage_step ttl ext kv0) key = dictLookup ext key := by
  simp only [add_heritage_step]
  rw [dictLookup_modify, if_neg hk]
  by_cases hc : dictContains ext (markerPre ++ kv0.2.name, "TXT") = true
  · rw [if_pos hc]
  · rw [if_neg hc, dictLookup_insert, if_neg hk]

theorem heritage_mono_step {ttl : Int} {ext : ZoneIndex} {kv0 : Key × RRset} {key : Key}
    {v : RRset} (hl : dictLookup ext key = some v) :
    ∃ v2, dictLookup (add_heritage_step ttl ext kv0) key = some v2 ∧
      v2.name = v.name ∧ v2.type = v.type ∧ ∀ r ∈ v.records, r ∈ v2.records := by
  by_cases hk : key = (markerPre ++ kv0.2.name, "TXT")
  · subst hk
    have hc : dictContains ext (markerPre ++ kv0.2.name, "TXT") = true := by
      simp [dictContains, hl]
    simp only [add_heritage_step, if_pos hc]
    rw [dictLookup_modify, if_pos rfl, hl]
    exact ⟨_, rfl, rfl, rfl, fun r hr => List.mem_append_left _ hr⟩
  · exact ⟨v, (heritage_step_lookup_other hk).trans hl, rfl, rfl, fun _ hr => hr⟩

theorem heritage_mono_fold {ttl : Int} :
    ∀ {l : List (Key × RRset)} {ext : ZoneIndex} {key : Key} {v : RRset},
      dictLookup ext key = some v →
      ∃ v2, dictLookup (l.foldl (add_heritage_step ttl) ext) key = some v2 ∧
        v2.name = v.name ∧ v2.type = v.type ∧ ∀ r ∈ v.records, r ∈ v2.records := by
  intro l
  induction l with
  | nil => intro ext key v hl; exact ⟨v, hl, rfl, rfl, fun _ hr => hr⟩
  | cons kv0 rest ih =>
    intro ext key v hl
    rw [List.foldl_cons]
    rcases heritage_mono_step hl with ⟨v1, hl1, hn1, ht1, hr1⟩
    rcases ih hl1 with ⟨v2, hl2, hn2, ht2, hr2⟩
    exact ⟨v2, hl2, hn2.trans hn1, ht2.trans ht1, fun r hr => hr2 _ (hr1 _ hr)⟩

theorem heritage_step_marker {ttl : Int} {ext : ZoneIndex} (kv0 : Key × RRset)
    (hwf : ∀ kv ∈ ext, kv.1 = (kv.2.name, kv.2.type)) :
    ∃ v, dictLookup (add_heritage_step ttl ext kv0) (markerPre ++ kv0.2.name, "TXT") = some v ∧
      v.name = markerPre ++ kv0.2.name ∧ v.type = "TXT" ∧
      heritageRec kv0.2.type ∈ v.records := by
  by_cases hc : dictContains ext (markerPre ++ kv0.2.name, "TXT") = true
  · rcases Option.isSome_iff_exists.mp hc with ⟨v0, hv0⟩
    have hk := hwf _ (mem_of_dictLookup hv0)
    have hn : v0.name = markerPre ++ kv0.2.name := (congrArg Prod.fst hk).symm
    have ht : v0.type = "TXT" := (congrArg Prod.snd hk).symm
    simp only [add_heritage_step, if_pos hc]
    rw [dictLookup_modify, if_pos rfl, hv0]
    exact ⟨_, rfl, hn, ht, List.mem_append_right _ (by simp)⟩
  · simp only [add_heritage_step, if_neg hc]
    rw [dictLookup_modify, if_pos rfl, dictLookup_insert, if_pos rfl]
    exact ⟨_, rfl, rfl, rfl, List.mem_append_right _ (by simp)⟩

/-! ## C9: the ownership round-trip -/

/-- C9: every key of a (well-formed) desired index is returned as owned when
the Ownership Tracker scans the output of the Heritage Annotator on that
index: the annotator writes a marker RRset whose content record parses back
to exactly that key. -/
theorem ownership_round_trip {d : ZoneIndex} {ttl : Int}
    (hwf : ∀ kv ∈ d, kv.1 = (kv.2.name, kv.2.type)) :
    ∀ k ∈ dictKeys d, k ∈ (get_owned_keys_from_rrsets (add_heritage_records d ttl)).1 := by
  intro k hk
  rcases exists_dictLookup_of_mem_keys hk with ⟨v, hv⟩
  have hkeq : k = (v.name, v.type) := hwf _ (mem_of_dictLookup hv)
  rcases List.append_of_mem (mem_of_dictLookup hv) with ⟨l1, l2, hsplit⟩
  have hfold : add_heritage_records d ttl =
      l2.foldl (add_heritage_step ttl) (add_heritage_step ttl (l1.foldl (add_heritage_step ttl) d) (k, v)) := by
    rw [add_heritage_records]
    rw [hsplit]
    rw [List.foldl_append, List.foldl_cons]
  have hwf1 : ∀ kv ∈ l1.foldl (add_heritage_step ttl) d, kv.1 = (kv.2.name, kv.2.type) := by
    have hwfd : ∀ kv ∈ d, kv.1 = (kv.2.name, kv.2.type) := hwf
    rw [hsplit] at hwfd
    rw [hsplit]
    exact wf_heritage_fold hwfd
  rcases heritage_step_marker (k, v) hwf1 with ⟨v1, hl1, hn1, ht1, hr1⟩
  rcases heritage_mono_fold hl1 with ⟨v2, hl2, hn2, ht2, hr2⟩
  rw [← hfold] at hl2
  have hmem2 : ((markerPre ++ v.name, "TXT"), v2) ∈ add_heritage_records d ttl :=
    mem_of_dictLookup hl2
  have hname2 : v2.name = markerPre ++ v.name := hn2.trans hn1
  have hrec : heritageRec v.type ∈ v2.records := hr2 _ hr1
  have hx : k ∈ (ownedOfTXT v2).1 := by
    have hclaim := ownedOfTXT_claim
      (by rw [hname2]; exact sStartsWith_self_append _ _) hrec
      (heritage_starts_pre v.type) (heritage_starts_quote v.type)
    rw [hname2] at hclaim
    rw [sDrop_self_append] at hclaim
    rw [heritageRec] at hclaim
    rw [ownedTypeOf_heritageContent] at hclaim
    rw [hkeq]
    exact hclaim
  exact owned_keys_intro hmem2 (ht2.trans ht1) hx

/-- Witness for C9: the SOA key of `exDesiredSimple` round-trips. -/
theorem ownership_round_trip_witness :
    ("example.com.", "SOA") ∈
      (get_owned_keys_from_rrsets (add_heritage_records exDesiredSimple 3600)).1 :=
  ownership_round_trip (by decide) ("example.com.", "SOA") (by decide)

/-! ## C8: illegal record items abort the build -/

theorem make_rrset_step_error_kind {name rtype : String} {st : List DnsRecord × Option JVal}
    {item : Item} {e : Err} {lines : List String}
    (h : make_rrset_step name rtype st item = Except.error (e, lines)) :
    e = Err.illegalKeys name rtype ∨ e = Err.duplicateTTL name rtype := by
  rw [make_rrset_step] at h
  by_cases hc : itemHas item "c" = true
  · simp only [hc, if_true] at h
    by_cases hi : ((itemKeys item).filter
        (fun k => decide (¬ k ∈ (["c", "r"] : List String)))).isEmpty = true
    · rw [if_pos hi] at h
      cases h
    · rw [if_neg hi] at h
      injection h with h2
      exact Or.inl (congrArg Prod.fst h2).symm
  · simp only [hc, if_false, Bool.not_eq_true] at h
    rw [if_neg (by simp [Bool.not_eq_true] at hc; simp [hc])] at h
    by_cases ht : itemHas item "t" = true
    · rw [if_pos (by simp [ht])] at h
      by_cases hi : ((itemKeys item).filter (fun k => decide (¬ k = "t"))).isEmpty = true
      · rw [if_pos hi] at h
        cases hst : st.2 with
        | some v =>
          rw [hst] at h
          injection h with h2
          exact Or.inr (congrArg Prod.fst h2).symm
        | none =>
          rw [hst] at h
          cases h
      · rw [if_neg hi] at h
        injection h with h2
        exact Or.inl (congrArg Prod.fst h2).symm
    · rw [if_neg (by simp [Bool.not_eq_true] at ht; simp [ht])] at h
      cases h

theorem make_rrset_step_bad_item {name rtype : String} {item : Item}
    (hbad : (itemHas item "c" = true ∧ ∃ k ∈ itemKeys item, k ∉ (["c", "r"] : List String)) ∨
      (itemHas item "c" = false ∧ itemHas item "t" = true ∧
        ∃ k ∈ itemKeys item, ¬ k = "t"))
    (st : List DnsRecord × Option JVal) :
    ∃ e lines, make_rrset_step name rtype st item = Except.error (e, lines) := by
  rw [make_rrset_step]
  rcases hbad with ⟨hc, k, hk, hnot⟩ | ⟨hc, ht, k, hk, hnot⟩
  · simp only [hc, if_true]
    have hmem : k ∈ (itemKeys item).filter
        (fun k => decide (¬ k ∈ (["c", "r"] : List String))) :=
      List.mem_filter.mpr ⟨hk, by simpa using hnot⟩
    have hne : ((itemKeys item).filter
        (fun k => decide (¬ k ∈ (["c", "r"] : List String)))).isEmpty = false := by
      cases hi : ((itemKeys item).filter
          (fun k => decide (¬ k ∈ (["c", "r"] : List String)))).isEmpty
      · rfl
      · rw [List.isEmpty_iff.mp hi] at hmem
        simp at hmem
    rw [if_neg (by rw [hne]; exact Bool.false_ne_true)]
    exact ⟨_, _, rfl⟩
  · simp only [hc, if_false]
    rw [if_neg (by simp [hc])]
    rw [if_pos (by simp [ht])]
    have hmem : k ∈ (itemKeys item).filter (fun k => decide (¬ k = "t")) :=
      List.mem_filter.mpr ⟨hk, by simpa using hnot⟩
    have hne : ((itemKeys item).filter (fun k => decide (¬ k = "t"))).isEmpty = false := by
      cases hi : ((itemKeys item).filter (fun k => decide (¬ k = "t"))).isEmpty
      · rfl
      · rw [List.isEmpty_iff.mp hi] at hmem
        simp at hmem
    rw [if_neg (by rw [hne]; exact Bool.false_ne_true)]
    exact ⟨_, _, rfl⟩

theorem make_rrset_items_fold_error_kind {name rtype : String} :
    ∀ {items : List Item} {st : List DnsRecord × Option JVal} {e : Err} {lines : List String},
      items.foldlM (make_rrset_step name rtype) st = Except.error (e, lines) →
      e = Err.illegalKeys name rtype ∨ e = Err.duplicateTTL name rtype := by
  intro items
  induction items with
  | nil =>
    intro st e lines h
    simp [List.foldlM_nil, pure, Except.pure] at h
  | cons item rest ih =>
    intro st e lines h
    rw [List.foldlM_cons] at h
    cases hs : make_rrset_step name rtype st item with
    | error el =>
      rw [hs] at h
      simp only [Bind.bind, Except.bind] at h
      cases h
      exact make_rrset_step_error_kind hs
    | ok st2 =>
      rw [hs] at h
      simp only [Bind.bind, Except.bind] at h
      exact ih h

theorem make_rrset_items_fold_bad {name rtype : String} {item : Item}
    (hbad : (itemHas item "c" = true ∧ ∃ k ∈ itemKeys item, k ∉ (["c", "r"] : List String)) ∨
      (itemHas item "c" = false ∧ itemHas item "t" = true ∧
        ∃ k ∈ itemKeys item, ¬ k = "t")) :
    ∀ {items : List Item}, item ∈ items →
      ∀ st, ∃ e lines, items.foldlM (make_rrset_step name rtype) st =
        Except.error (e, lines) := by
  intro items
  induction items with
  | nil => intro hm; simp at hm
  | cons a rest ih =>
    intro hm st
    rw [List.foldlM_cons]
    cases hs : make_rrset_step name rtype st a with
    | error el =>
      refine ⟨el.1, el.2, ?_⟩
      simp only [Bind.bind, Except.bind]
    | ok st2 =>
      rcases List.mem_cons.mp hm with h1 | h1
      · subst h1
        rcases make_rrset_step_bad_item hbad st with ⟨e, lines, he⟩
        rw [he] at hs
        cases hs
      · rcases ih h1 st2 with ⟨e, lines, he⟩
        refine ⟨e, lines, ?_⟩
        simp only [Bind.bind, Except.bind, he]

theorem make_rrset_error_kind {domain rtype : String} {items : List Item} {ttl : Int}
    {e : Err} {lines : List String}
    (h : make_rrset domain rtype items ttl = Except.error (e, lines)) :
    (∃ n t2, e = Err.illegalKeys n t2) ∨ (∃ n t2, e = Err.duplicateTTL n t2) := by
  rw [make_rrset] at h
  cases hi : make_rrset_items (domain ++ ".") rtype items with
  | error el =>
    rw [hi] at h
    simp only [Bind.bind, Except.bind] at h
    cases h
    rcases make_rrset_items_fold_error_kind hi with h1 | h1
    · exact Or.inl ⟨_, _, h1⟩
    · exact Or.inr ⟨_, _, h1⟩
  | ok st =>
    rw [hi] at h
    simp [Bind.bind, Except.bind, pure, Except.pure] at h

theorem make_rrset_bad (domain rtype : String) (ttl : Int) {items : List Item} {item : Item}
    (hbad : (itemHas item "c" = true ∧ ∃ k ∈ itemKeys item, k ∉ (["c", "r"] : List String)) ∨
      (itemHas item "c" = false ∧ itemHas item "t" = true ∧
        ∃ k ∈ itemKeys item, ¬ k = "t"))
    (hm : item ∈ items) :
    ∃ e lines, make_rrset domain rtype items ttl = Except.error (e, lines) := by
  rcases make_rrset_items_fold_bad hbad hm ([], none) with ⟨e, lines, he⟩
  refine ⟨e, lines, ?_⟩
  rw [make_rrset, make_rrset_items, he]
  rfl

theorem makeInner_fold_error_kind {domain : String} {ttl : Int} :
    ∀ {tl : List (String × List Item)} {acc : List RRset} {e : Err} {lines : List String},
      tl.foldlM (makeInner domain ttl) acc = Except.error (e, lines) →
      (∃ n t2, e = Err.illegalKeys n t2) ∨ (∃ n t2, e = Err.duplicateTTL n t2) := by
  intro tl
  induction tl with
  | nil =>
    intro acc e lines h
    simp [List.foldlM_nil, pure, Except.pure] at h
  | cons tv rest ih =>
    intro acc e lines h
    rw [List.foldlM_cons] at h
    cases hs : makeInner domain ttl acc tv with
    | error el =>
      rw [hs] at h
      simp only [Bind.bind, Except.bind] at h
      cases h
      rw [makeInner] at hs
      cases hmr : make_rrset domain tv.1 tv.2 ttl with
      | error el2 =>
        rw [hmr] at hs
        simp only [Bind.bind, Except.bind] at hs
        cases hs
        exact make_rrset_error_kind hmr
      | ok r =>
        rw [hmr] at hs
        simp [Bind.bind, Except.bind, pure, Except.pure] at hs
    | ok acc2 =>
      rw [hs] at h
      simp only [Bind.bind, Except.bind] at h
      exact ih h

theorem makeInner_fold_bad {domain : String} {ttl : Int} {items : List Item} {item : Item}
    {rtype : String}
    (hbad : (itemHas item "c" = true ∧ ∃ k ∈ itemKeys item, k ∉ (["c", "r"] : List String)) ∨
      (itemHas item "c" = false ∧ itemHas item "t" = true ∧
        ∃ k ∈ itemKeys item, ¬ k = "t"))
    (hmi : item ∈ items) :
    ∀ {tl : List (String × List Item)}, (rtype, items) ∈ tl →
      ∀ acc, ∃ e lines, tl.foldlM (makeInner domain ttl) acc = Except.error (e, lines) := by
  intro tl
  induction tl with
  | nil => intro hm; simp at hm
  | cons tv rest ih =>
    intro hm acc
    rw [List.foldlM_cons]
    cases hs : makeInner domain ttl acc tv with
    | error el =>
      refine ⟨el.1, el.2, ?_⟩
      simp only [Bind.bind, Except.bind]
    | ok acc2 =>
      rcases List.mem_cons.mp hm with h1 | h1
      · subst h1
        rcases make_rrset_bad domain rtype ttl hbad hmi with ⟨e, lines, he⟩
        rw [makeInner] at hs
        simp only [he, Bind.bind, Except.bind] at hs
        simp [Bind.bind, Except.bind] at hs
      · rcases ih h1 acc2 with ⟨e, lines, he⟩
        refine ⟨e, lines, ?_⟩
        simp only [Bind.bind, Except.bind, he]

theorem makeOuter_fold_error_kind {ttl : Int} :
    ∀ {rs : ZoneRecords} {acc : List RRset} {e : Err} {lines : List String},
      rs.foldlM (makeOuter ttl) acc = Except.error (e, lines) →
      (∃ n t2, e = Err.illegalKeys n t2) ∨ (∃ n t2, e = Err.duplicateTTL n t2) := by
  intro rs
  induction rs with
  | nil =>
    intro acc e lines h
    simp [List.foldlM_nil, pure, Except.pure] at h
  | cons dv rest ih =>
    intro acc e lines h
    rw [List.foldlM_cons] at h
    cases hs : makeOuter ttl acc dv with
    | error el =>
      rw [hs] at h
      simp only [Bind.bind, Except.bind] at h
      cases h
      exact makeInner_fold_error_kind hs
    | ok acc2 =>
      rw [hs] at h
      simp only [Bind.bind, Except.bind] at h
      exact ih h

theorem makeOuter_fold_bad {ttl : Int} {items : List Item} {item : Item}
    {rtype domain : String} {byType : List (String × List Item)}
    (hbad : (itemHas item "c" = true ∧ ∃ k ∈ itemKeys item, k ∉ (["c", "r"] : List String)) ∨
      (itemHas item "c" = false ∧ itemHas item "t" = true ∧
        ∃ k ∈ itemKeys item, ¬ k = "t"))
    (hmi : item ∈ items) (hmt : (rtype, items) ∈ byType) :
    ∀ {rs : ZoneRecords}, (domain, byType) ∈ rs →
      ∀ acc, ∃ e lines, rs.foldlM (makeOuter ttl) acc = Except.error (e, lines) := by
  intro rs
  induction rs with
  | nil => intro hm; simp at hm
  | cons dv rest ih =>
    intro hm acc
    rw [List.foldlM_cons]
    cases hs : makeOuter ttl acc dv with
    | error el =>
      refine ⟨el.1, el.2, ?_⟩
      simp only [Bind.bind, Except.bind]
    | ok acc2 =>
      rcases List.mem_cons.mp hm with h1 | h1
      · subst h1
        rcases makeInner_fold_bad hbad hmi hmt acc with ⟨e, lines, he⟩
        rw [makeOuter] at hs
        rw [he] at hs
        cases hs
      · rcases ih h1 acc2 with ⟨e, lines, he⟩
        refine ⟨e, lines, ?_⟩
        simp only [Bind.bind, Except.bind, he]

/-- C8 (amended): if any record item carries a key other than `"c"`/`"r"`
(for a content item) or other than `"t"` (for a TTL directive), the run
aborts with an input-validation error — the illegal-key error, or the
duplicate-TTL error when one is hit first — before any PATCH is issued; the
network trace is exactly the GET, which `main` performs *before* building
the desired RRsets. -/
theorem illegal_item_aborts (records : ZoneRecords) (ttl : Int) (remoteList : List RRset)
    (zid : String)
    (hbad : ∃ dv ∈ records, ∃ tv ∈ dv.2, ∃ item ∈ tv.2,
      (itemHas item "c" = true ∧ ∃ k ∈ itemKeys item, k ∉ (["c", "r"] : List String)) ∨
      (itemHas item "c" = false ∧ itemHas item "t" = true ∧
        ∃ k ∈ itemKeys item, ¬ k = "t")) :
    ∃ e lines, run_main records ttl remoteList zid = ([NetCall.get], lines, some e) ∧
      ((∃ n t2, e = Err.illegalKeys n t2) ∨ (∃ n t2, e = Err.duplicateTTL n t2)) := by
  rcases hbad with ⟨dv, hdv, tv, htv, item, hitem, hbad⟩
  have hre : ∃ e lines, records.foldlM (makeOuter ttl) ([] : List RRset) =
      Except.error (e, lines) := by
    rcases makeOuter_fold_bad hbad hitem (by simpa using htv) (by simpa using hdv)
      ([] : List RRset) with ⟨e, lines, he⟩
    exact ⟨e, lines, he⟩
  rcases hre with ⟨e, lines, he⟩
  have hmk : make_rrsets records ttl = Except.error (e, lines) := by
    rw [make_rrsets, he]
    rfl
  refine ⟨e, lines, ?_, makeOuter_fold_error_kind he⟩
  rw [run_main]
  simp only [reconcile, hmk]

/-- Witness for C8 at the spec's example item `{"c": "1.2.3.4", "x": 1}`. -/
theorem illegal_item_aborts_witness :
    ∃ e lines, run_main exCfgIllegal 300 exRemoteList "example.com" =
      ([NetCall.get], lines, some e) ∧
      ((∃ n t2, e = Err.illegalKeys n t2) ∨ (∃ n t2, e = Err.duplicateTTL n t2)) :=
  illegal_item_aborts exCfgIllegal 300 exRemoteList "example.com" (by decide)

/-! ## Small facts about normalization -/

theorem sortRecords_singleton (r : DnsRecord) : sortRecords [r] = [r] := rfl

theorem replaced_eq_normalized {v : RRset} (h : v.comments = none) :
    replacedRRset v = normalized_rrset v := by
  simp [replacedRRset, normalized_rrset, h]

theorem dict_entry_unique {m : ZoneIndex} {k : Key} {a b : RRset}
    (hnd : (dictKeys m).Nodup) (ha : (k, a) ∈ m) (hb : (k, b) ∈ m) : a = b := by
  have h1 := dictLookup_of_mem ha hnd
  have h2 := dictLookup_of_mem hb hnd
  rw [h1] at h2
  cases h2
  rfl

/-! ## Patch application lemmas -/

theorem dictLookup_applyOne_replace (z : ZoneIndex) (r : RRset) (k : Key) :
    dictLookup (applyOne z (Patch.replace r)) k =
      if k = (r.name, r.type) then some r else dictLookup z k :=
  dictLookup_insert _ _ _ _

theorem dictLookup_applyOne_delete (z : ZoneIndex) (n t : String) (k : Key) :
    dictLookup (applyOne z (Patch.delete n t)) k =
      if k = (n, t) then none else dictLookup z k :=
  dictLookup_remove _ _ _

theorem apply_patches_append (ps1 ps2 : List Patch) (z : ZoneIndex) :
    apply_patches (ps1 ++ ps2) z = apply_patches ps2 (apply_patches ps1 z) :=
  List.foldl_append _ _ _ _

theorem apply_patches_lookup_notin :
    ∀ {ps : List Patch} {z : ZoneIndex} {k : Key},
      (∀ p ∈ ps, patchKey p ≠ k) → dictLookup (apply_patches ps z) k = dictLookup z k := by
  intro ps
  induction ps with
  | nil => intro z k _; rfl
  | cons p rest ih =>
    intro z k h
    rw [apply_patches, List.foldl_cons, ← apply_patches]
    rw [ih (fun q hq => h q (List.mem_cons_of_mem _ hq))]
    have hp := h p (List.mem_cons_self _ _)
    cases p with
    | replace r =>
      rw [dictLookup_applyOne_replace, if_neg (fun he => hp (by rw [patchKey, ← he]))]
    | delete n t =>
      rw [dictLookup_applyOne_delete, if_neg (fun he => hp (by rw [patchKey, ← he]))]

theorem apply_patches_replace_lookup {ps1 ps2 : List Patch} {r : RRset} {z : ZoneIndex}
    (h2 : ∀ p ∈ ps2, patchKey p ≠ (r.name, r.type)) :
    dictLookup (apply_patches (ps1 ++ Patch.replace r :: ps2) z) (r.name, r.type) = some r := by
  have : ps1 ++ Patch.replace r :: ps2 = (ps1 ++ [Patch.replace r]) ++ ps2 := by simp
  rw [this, apply_patches_append, apply_patches_lookup_notin h2,
    apply_patches_append]
  rw [show apply_patches [Patch.replace r] (apply_patches ps1 z) =
    applyOne (apply_patches ps1 z) (Patch.replace r) from rfl]
  rw [dictLookup_applyOne_replace, if_pos rfl]

theorem apply_patches_delete_lookup {ps1 ps2 : List Patch} {n t : String} {z : ZoneIndex}
    (h2 : ∀ p ∈ ps2, patchKey p ≠ (n, t)) :
    dictLookup (apply_patches (ps1 ++ Patch.delete n t :: ps2) z) (n, t) = none := by
  have : ps1 ++ Patch.delete n t :: ps2 = (ps1 ++ [Patch.delete n t]) ++ ps2 := by simp
  rw [this, apply_patches_append, apply_patches_lookup_notin h2,
    apply_patches_append]
  rw [show apply_patches [Patch.delete n t] (apply_patches ps1 z) =
    applyOne (apply_patches ps1 z) (Patch.delete n t) from rfl]
  rw [dictLookup_applyOne_delete, if_pos rfl]

theorem nodup_keys_applyOne {z : ZoneIndex} {p : Patch}
    (h : (dictKeys z).Nodup) : (dictKeys (applyOne z p)).Nodup := by
  cases p with
  | replace r => exact nodup_keys_dictInsert h
  | delete n t => exact nodup_keys_dictRemove h

theorem nodup_keys_apply_patches :
    ∀ {ps : List Patch} {z : ZoneIndex},
      (dictKeys z).Nodup → (dictKeys (apply_patches ps z)).Nodup := by
  intro ps
  induction ps with
  | nil => intro z h; exact h
  | cons p rest ih =>
    intro z h
    rw [apply_patches, List.foldl_cons, ← apply_patches]
    exact ih (nodup_keys_applyOne h)

/-! ## Keys of the computed patches -/

theorem replace_patch_provenance {target R : ZoneIndex} {p : Patch}
    (hwfT : ∀ kv ∈ target, kv.1 = (kv.2.name, kv.2.type))
    (hp : p ∈ target.filterMap (replaceDecision R)) :
    ∃ kv ∈ target, p = Patch.replace (replacedRRset kv.2) ∧ patchKey p = kv.1 ∧
      normalized_rrset kv.2 ∉ dictValues R := by
  rcases List.mem_filterMap.mp hp with ⟨kv, hkv, hdec⟩
  rw [replaceDecision] at hdec
  by_cases hc : normalized_rrset kv.2 ∈ dictValues R
  · rw [if_pos hc] at hdec
    cases hdec
  · rw [if_neg hc] at hdec
    injection hdec with he
    refine ⟨kv, hkv, he.symm, ?_, hc⟩
    rw [← he, patchKey]
    exact (hwfT kv hkv).symm

theorem delete_patch_provenance {target R : ZoneIndex} {owned : List Key} {p : Patch}
    (hwfR : ∀ kv ∈ R, kv.1 = (kv.2.name, kv.2.type))
    (hp : p ∈ R.filterMap (deleteDecision target owned)) :
    ∃ kv ∈ R, p = Patch.delete kv.2.name kv.2.type ∧ patchKey p = kv.1 ∧
      kv.1 ∈ owned ∧ dictContains target kv.1 = false := by
  rcases List.mem_filterMap.mp hp with ⟨kv, hkv, hdec⟩
  rw [deleteDecision] at hdec
  by_cases hc : kv.1 ∈ owned ∧ dictContains target kv.1 = false
  · rw [if_pos hc] at hdec
    injection hdec with he
    refine ⟨kv, hkv, he.symm, ?_, hc.1, hc.2⟩
    rw [← he, patchKey]
    exact (hwfR kv hkv).symm
  · rw [if_neg hc] at hdec
    cases hdec

/-! ## Sequencing facts about `extract_soa` and `patch_soa` -/

theorem extract_soa_ok_elim {m : ZoneIndex} {zid s : String}
    (h : extract_soa m zid = Except.ok s) :
    ∃ soa r, dictLookup m (zid ++ ".", "SOA") = some soa ∧ soa.records = [r] ∧
      r.content = s := by
  rw [extract_soa] at h
  cases hl : dictLookup m (zid ++ ".", "SOA") with
  | none => rw [hl] at h; cases h
  | some soa =>
    rw [hl] at h
    dsimp only at h
    cases hr : soa.records with
    | nil => rw [hr] at h; cases h
    | cons r rest =>
      cases rest with
      | nil =>
        rw [hr] at h
        dsimp only at h
        injection h with he
        exact ⟨soa, r, rfl, hr, he⟩
      | cons r2 rest2 => rw [hr] at h; cases h

theorem patch_soa_ok_elim {dst src : ZoneIndex} {zid : String} {out : ZoneIndex}
    (h : patch_soa dst src zid = Except.ok out) :
    ∃ ds ss tk, extract_soa dst zid = Except.ok ds ∧ extract_soa src zid = Except.ok ss ∧
      (pySplit ds).get? 2 = some tk ∧
      ((tk = "AUTO" ∧ ∃ sk, (pySplit ss).get? 2 = some sk ∧
          set_soa dst (joinSpace ((pySplit ds).set 2 sk)) = Except.ok out) ∨
       (¬ tk = "AUTO" ∧ set_soa dst (joinSpace (pySplit ds)) = Except.ok out)) := by
  rw [patch_soa] at h
  cases hde : extract_soa dst zid with
  | error e => rw [hde] at h; simp [Bind.bind, Except.bind] at h
  | ok ds =>
    rw [hde] at h
    cases hse : extract_soa src zid with
    | error e =>
      rw [hse] at h
      simp [Bind.bind, Except.bind] at h
    | ok ss =>
      rw [hse] at h
      simp only [Bind.bind, Except.bind] at h
      cases htk : (pySplit ds).get? 2 with
      | none => rw [htk] at h; cases h
      | some tk =>
        rw [htk] at h
        dsimp only at h
        by_cases hauto : tk = "AUTO"
        · rw [if_pos hauto] at h
          cases hsk : (pySplit ss).get? 2 with
          | none => rw [hsk] at h; cases h
          | some sk =>
            rw [hsk] at h
            dsimp only at h
            exact ⟨ds, ss, tk, rfl, rfl, htk, Or.inl ⟨hauto, sk, hsk, h⟩⟩
        · rw [if_neg hauto] at h
          exact ⟨ds, ss, tk, rfl, rfl, htk, Or.inr ⟨hauto, h⟩⟩

theorem patch_soa_ok_intro_lit {dst src : ZoneIndex} {zid : String} {out : ZoneIndex}
    {ds ss tk : String}
    (hde : extract_soa dst zid = Except.ok ds) (hse : extract_soa src zid = Except.ok ss)
    (htk : (pySplit ds).get? 2 = some tk) (hna : ¬ tk = "AUTO")
    (hset : set_soa dst (joinSpace (pySplit ds)) = Except.ok out) :
    patch_soa dst src zid = Except.ok out := by
  rw [patch_soa, hde, hse]
  simp only [Bind.bind, Except.bind, htk]
  rw [if_neg hna]
  exact hset

theorem adjustSOA_fields {c : String} {v v' : RRset} (h : adjustSOA c v = some v') :
    v'.name = v.name ∧ v'.type = v.type ∧ v'.ttl = v.ttl ∧ v'.comments = v.comments := by
  rw [adjustSOA] at h
  by_cases ht : v.type = "SOA"
  · rw [if_pos ht] at h
    cases hr : v.records with
    | nil => rw [hr] at h; cases h
    | cons r rest =>
      rw [hr] at h
      injection h with he
      rw [← he]
      exact ⟨rfl, rfl, rfl, rfl⟩
  · rw [if_neg ht] at h
    injection h with he
    rw [← he]
    exact ⟨rfl, rfl, rfl, rfl⟩

theorem set_soa_wf {m : ZoneIndex} {c : String} {m' : ZoneIndex}
    (h : set_soa m c = Except.ok m')
    (hwf : ∀ kv ∈ m, kv.1 = (kv.2.name, kv.2.type)) :
    ∀ kv ∈ m', kv.1 = (kv.2.name, kv.2.type) := by
  intro kv hkv
  rcases set_soa_mem h hkv with ⟨v, hv, ha⟩
  obtain ⟨hn, ht, _, _⟩ := adjustSOA_fields ha
  have := hwf _ hv
  rw [this, ← hn, ← ht]

theorem set_soa_comments {m : ZoneIndex} {c : String} {m' : ZoneIndex}
    (h : set_soa m c = Except.ok m')
    (hcm : ∀ kv ∈ m, kv.2.comments = none) :
    ∀ kv ∈ m', kv.2.comments = none := by
  intro kv hkv
  rcases set_soa_mem h hkv with ⟨v, hv, ha⟩
  obtain ⟨_, _, _, hc⟩ := adjustSOA_fields ha
  rw [hc]
  exact hcm _ hv

theorem set_soa_names {m : ZoneIndex} {c : String} {m' : ZoneIndex}
    (h : set_soa m c = Except.ok m')
    (hnm : ∀ kv ∈ m, sStartsWith kv.2.name markerPre = false) :
    ∀ kv ∈ m', sStartsWith kv.2.name markerPre = false := by
  intro kv hkv
  rcases set_soa_mem h hkv with ⟨v, hv, ha⟩
  obtain ⟨hn, _, _, _⟩ := adjustSOA_fields ha
  rw [hn]
  exact hnm _ hv

/-! ## More Heritage Annotator lemmas -/

theorem heritage_fold_lookup_nonmarker {ttl : Int} :
    ∀ {l : List (Key × RRset)} {ext : ZoneIndex} {key : Key},
      sStartsWith key.1 markerPre = false →
      dictLookup (l.foldl (add_heritage_step ttl) ext) key = dictLookup ext key := by
  intro l
  induction l with
  | nil => intro ext key _; rfl
  | cons kv0 rest ih =>
    intro ext key hk
    rw [List.foldl_cons, ih hk, heritage_step_lookup_other]
    intro he
    rw [he] at hk
    rw [show ((markerPre ++ kv0.2.name, "TXT") : Key).1 = markerPre ++ kv0.2.name from rfl,
      sStartsWith_self_append] at hk
    cases hk

theorem nodup_keys_heritage_step {ttl : Int} {ext : ZoneIndex} {kv0 : Key × RRset}
    (h : (dictKeys ext).Nodup) : (dictKeys (add_heritage_step ttl ext kv0)).Nodup := by
  simp only [add_heritage_step]
  apply nodup_keys_dictModify
  by_cases hc : dictContains ext (markerPre ++ kv0.2.name, "TXT") = true
  · rw [if_pos hc]
    exact h
  · rw [if_neg hc]
    exact nodup_keys_dictInsert h

theorem nodup_keys_heritage_fold {ttl : Int} :
    ∀ {l : List (Key × RRset)} {ext : ZoneIndex},
      (dictKeys ext).Nodup → (dictKeys (l.foldl (add_heritage_step ttl) ext)).Nodup := by
  intro l
  induction l with
  | nil => intro ext h; exact h
  | cons kv0 rest ih =>
    intro ext h
    rw [List.foldl_cons]
    exact ih (nodup_keys_heritage_step h)

theorem heritage_step_comments {ttl : Int} {ext : ZoneIndex} {kv0 : Key × RRset}
    (h : ∀ kv ∈ ext, kv.2.comments = none) :
    ∀ kv ∈ add_heritage_step ttl ext kv0, kv.2.comments = none := by
  intro kv hkv
  simp only [add_heritage_step] at hkv
  rcases mem_dictModify hkv with ⟨kv2, hkv2, he⟩
  have h2 : kv2.2.comments = none := by
    by_cases hc : dictContains ext (markerPre ++ kv0.2.name, "TXT") = true
    · rw [if_pos hc] at hkv2
      exact h _ hkv2
    · rw [if_neg hc] at hkv2
      rcases mem_dictInsert hkv2 with h3 | h3
      · rw [h3]
        rfl
      · exact h _ h3
  by_cases hk : kv2.1 = (markerPre ++ kv0.2.name, "TXT")
  · rw [if_pos hk] at he
    rw [he]
    exact h2
  · rw [if_neg hk] at he
    rw [he]
    exact h2

theorem heritage_fold_comments {ttl : Int} :
    ∀ {l : List (Key × RRset)} {ext : ZoneIndex},
      (∀ kv ∈ ext, kv.2.comments = none) →
      ∀ kv ∈ l.foldl (add_heritage_step ttl) ext, kv.2.comments = none := by
  intro l
  induction l with
  | nil => intro ext h; exact h
  | cons kv0 rest ih =>
    intro ext h
    rw [List.foldl_cons]
    exact ih (heritage_step_comments h)

theorem heritage_fold_keys_mono {ttl : Int} {l : List (Key × RRset)} {ext : ZoneIndex}
    {k : Key} (h : k ∈ dictKeys ext) :
    k ∈ dictKeys (l.foldl (add_heritage_step ttl) ext) := by
  rcases exists_dictLookup_of_mem_keys h with ⟨v, hv⟩
  rcases heritage_mono_fold hv with ⟨v2, hv2, _, _, _⟩
  exact mem_keys_of_dictLookup hv2

theorem heritage_marker_of_mem {d : ZoneIndex} {ttl : Int} {k : Key} {v : RRset}
    (hwf : ∀ kv ∈ d, kv.1 = (kv.2.name, kv.2.type)) (hm : (k, v) ∈ d) :
    ∃ v2, dictLookup (add_heritage_records d ttl) (markerPre ++ v.name, "TXT") = some v2 ∧
      v2.name = markerPre ++ v.name ∧ v2.type = "TXT" ∧
      heritageRec v.type ∈ v2.records := by
  rcases List.append_of_mem hm with ⟨l1, l2, hsplit⟩
  have hfold : add_heritage_records d ttl =
      l2.foldl (add_heritage_step ttl)
        (add_heritage_step ttl (l1.foldl (add_heritage_step ttl) d) (k, v)) := by
    rw [add_heritage_records, hsplit, List.foldl_append, List.foldl_cons]
  have hwf1 : ∀ kv ∈ l1.foldl (add_heritage_step ttl) d, kv.1 = (kv.2.name, kv.2.type) :=
    wf_heritage_fold hwf
  rcases heritage_step_marker (k, v) hwf1 with ⟨v1, hl1, hn1, ht1, hr1⟩
  rcases heritage_mono_fold hl1 with ⟨v2, hl2, hn2, ht2, hr2⟩
  rw [← hfold] at hl2
  exact ⟨v2, hl2, hn2.trans hn1, ht2.trans ht1, hr2 _ hr1⟩

theorem heritage_step_structure {ttl : Int} {D0 : List Key} {ext : ZoneIndex}
    {kv0 : Key × RRset}
    (hwf : ∀ kv ∈ ext, kv.1 = (kv.2.name, kv.2.type))
    (hinv : ∀ kv ∈ ext, sStartsWith kv.2.name markerPre = true →
      kv.2.type = "TXT" ∧ ∀ r ∈ kv.2.records, ∃ t2, r.content = heritageContent t2 ∧
        (sDrop kv.2.name (sLen markerPre), t2) ∈ D0)
    (h0 : kv0.1 ∈ D0 ∧ kv0.1 = (kv0.2.name, kv0.2.type)) :
    ∀ kv ∈ add_heritage_step ttl ext kv0, sStartsWith kv.2.name markerPre = true →
      kv.2.type = "TXT" ∧ ∀ r ∈ kv.2.records, ∃ t2, r.content = heritageContent t2 ∧
        (sDrop kv.2.name (sLen markerPre), t2) ∈ D0 := by
  intro kv hkv hsw
  simp only [add_heritage_step] at hkv
  rcases mem_dictModify hkv with ⟨kv2, hkv2, he⟩
  have hclaim0 : (kv0.2.name, kv0.2.type) ∈ D0 := by
    rw [← h0.2]
    exact h0.1
  by_cases hk : kv2.1 = (markerPre ++ kv0.2.name, "TXT")
  · rw [if_pos hk] at he
    have hv2 : kv2.2.name = markerPre ++ kv0.2.name ∧ kv2.2.type = "TXT" ∧
        (∀ r ∈ kv2.2.records, ∃ t2, r.content = heritageContent t2 ∧
          (sDrop kv2.2.name (sLen markerPre), t2) ∈ D0) := by
      by_cases hc : dictContains ext (markerPre ++ kv0.2.name, "TXT") = true
      · rw [if_pos hc] at hkv2
        have hw := hwf _ hkv2
        rw [hk] at hw
        have hn : kv2.2.name = markerPre ++ kv0.2.name := (congrArg Prod.fst hw).symm
        have ht : kv2.2.type = "TXT" := (congrArg Prod.snd hw).symm
        have hsw2 : sStartsWith kv2.2.name markerPre = true := by
          rw [hn]
          exact sStartsWith_self_append _ _
        exact ⟨hn, ht, (hinv _ hkv2 hsw2).2⟩
      · rw [if_neg hc] at hkv2
        rcases mem_dictInsert hkv2 with h3 | h3
        · rw [h3]
          exact ⟨rfl, rfl, by intro r hr; simp [emptyMarker] at hr⟩
        · have hw := hwf _ h3
          rw [hk] at hw
          have hn : kv2.2.name = markerPre ++ kv0.2.name := (congrArg Prod.fst hw).symm
          have ht : kv2.2.type = "TXT" := (congrArg Prod.snd hw).symm
          have hsw2 : sStartsWith kv2.2.name markerPre = true := by
            rw [hn]
            exact sStartsWith_self_append _ _
          exact ⟨hn, ht, (hinv _ h3 hsw2).2⟩
    rw [he]
    refine ⟨hv2.2.1, ?_⟩
    intro r hr
    rcases List.mem_append.mp hr with h4 | h4
    · rcases hv2.2.2 r h4 with ⟨t2, hc2, hd2⟩
      exact ⟨t2, hc2, hd2⟩
    · have hr2 : r = heritageRec kv0.2.type := by simpa using h4
      refine ⟨kv0.2.type, by rw [hr2, heritageRec], ?_⟩
      rw [hv2.1, sDrop_self_append]
      exact hclaim0
  · rw [if_neg hk] at he
    subst he
    by_cases hc : dictContains ext (markerPre ++ kv0.2.name, "TXT") = true
    · rw [if_pos hc] at hkv2
      exact hinv _ hkv2 hsw
    · rw [if_neg hc] at hkv2
      rcases mem_dictInsert hkv2 with h3 | h3
      · exact absurd (congrArg Prod.fst h3) (by simpa using hk)
      · exact hinv _ h3 hsw

theorem heritage_fold_structure {ttl : Int} {D0 : List Key} :
    ∀ {l : List (Key × RRset)} {ext : ZoneIndex},
      (∀ kv ∈ ext, kv.1 = (kv.2.name, kv.2.type)) →
      (∀ kv ∈ ext, sStartsWith kv.2.name markerPre = true →
        kv.2.type = "TXT" ∧ ∀ r ∈ kv.2.records, ∃ t2, r.content = heritageContent t2 ∧
          (sDrop kv.2.name (sLen markerPre), t2) ∈ D0) →
      (∀ kv0 ∈ l, kv0.1 ∈ D0 ∧ kv0.1 = (kv0.2.name, kv0.2.type)) →
      ∀ kv ∈ l.foldl (add_heritage_step ttl) ext, sStartsWith kv.2.name markerPre = true →
        kv.2.type = "TXT" ∧ ∀ r ∈ kv.2.records, ∃ t2, r.content = heritageContent t2 ∧
          (sDrop kv.2.name (sLen markerPre), t2) ∈ D0 := by
  intro l
  induction l with
  | nil => intro ext _ hinv _; exact hinv
  | cons kv0 rest ih =>
    intro ext hwf hinv hl
    rw [List.foldl_cons]
    exact ih (wf_add_heritage_step hwf)
      (heritage_step_structure hwf hinv (hl kv0 (List.mem_cons_self _ _)))
      (fun kv hkv => hl kv (List.mem_cons_of_mem _ hkv))

theorem mem_keys_of_mem {m : ZoneIndex} {kv : Key × RRset} (h : kv ∈ m) :
    kv.1 ∈ dictKeys m :=
  List.mem_map.mpr ⟨kv, h, rfl⟩

/-- After applying the computed patch list, every key of the (well-formed)
target index holds exactly the normalized target RRset. -/
theorem apply_rrset_patches_lookup_target {target R : ZoneIndex} {owned : List Key}
    {k : Key} {v : RRset}
    (hwfT : ∀ kv ∈ target, kv.1 = (kv.2.name, kv.2.type))
    (hndT : (dictKeys target).Nodup)
    (hwfR : ∀ kv ∈ R, kv.1 = (kv.2.name, kv.2.type))
    (hndR : (dictKeys R).Nodup)
    (hcomm : v.comments = none)
    (hmem : (k, v) ∈ target) :
    dictLookup (apply_patches (rrset_patches target R owned) R) k =
      some (normalized_rrset v) := by
  have hkeq : k = (v.name, v.type) := hwfT _ hmem
  by_cases hcase : normalized_rrset v ∈ dictValues R
  · have hnp : ∀ p ∈ rrset_patches target R owned, patchKey p ≠ k := by
      intro p hp
      rcases List.mem_append.mp hp with h1 | h1
      · rcases replace_patch_provenance hwfT h1 with ⟨kv, hkv, _, hpk, hnc⟩
        intro he
        rw [hpk] at he
        have hkv2 : (k, kv.2) ∈ target := by
          rw [← he]
          simpa using hkv
        have hveq : kv.2 = v := dict_entry_unique hndT hkv2 hmem
        rw [hveq] at hnc
        exact hnc hcase
      · rcases delete_patch_provenance hwfR h1 with ⟨kv, _, _, hpk, _, hcont⟩
        intro he
        rw [hpk] at he
        rw [he] at hcont
        rw [dictContains_eq_false] at hcont
        exact hcont (mem_keys_of_mem hmem)
    rw [apply_patches_lookup_notin hnp]
    rcases List.mem_map.mp hcase with ⟨kv, hkv, hkv2⟩
    have hk1 : kv.1 = k := by
      rw [hwfR _ hkv, hkv2, hkeq]
      rfl
    have hmemR : (k, normalized_rrset v) ∈ R := by
      rw [← hk1, ← hkv2]
      simpa using hkv
    exact dictLookup_of_mem hmemR hndR
  · rcases List.append_of_mem hmem with ⟨t1, t2, hsplit⟩
    have hdec : replaceDecision R (k, v) = some (Patch.replace (replacedRRset v)) := by
      rw [replaceDecision]
      rw [if_neg (by simpa using hcase)]
    have hfm : target.filterMap (replaceDecision R) =
        t1.filterMap (replaceDecision R) ++ Patch.replace (replacedRRset v) ::
          t2.filterMap (replaceDecision R) := by
      rw [hsplit, List.filterMap_append, List.filterMap_cons, hdec]
    have hkt2 : k ∉ dictKeys t2 := by
      rw [hsplit] at hndT
      simp only [dictKeys, List.map_append, List.map_cons] at hndT
      have := (List.nodup_append.mp hndT).2.1
      rw [List.nodup_cons] at this
      exact this.1
    have hmemT2 : ∀ kv ∈ t2, kv ∈ target := by
      intro kv hkv
      rw [hsplit]
      exact List.mem_append_right _ (List.mem_cons_of_mem _ hkv)
    have h2 : ∀ p ∈ t2.filterMap (replaceDecision R) ++
        R.filterMap (deleteDecision target owned),
        patchKey p ≠ ((replacedRRset v).name, (replacedRRset v).type) := by
      intro p hp
      have hrk : ((replacedRRset v).name, (replacedRRset v).type) = k := hkeq.symm
      rw [hrk]
      rcases List.mem_append.mp hp with h1 | h1
      · rcases replace_patch_provenance (fun kv hkv => hwfT kv (hmemT2 kv hkv)) h1 with
          ⟨kv, hkv, _, hpk, _⟩
        intro he
        rw [hpk] at he
        exact hkt2 (he ▸ mem_keys_of_mem hkv)
      · rcases delete_patch_provenance hwfR h1 with ⟨kv, _, _, hpk, _, hcont⟩
        intro he
        rw [hpk] at he
        rw [he] at hcont
        rw [dictContains_eq_false] at hcont
        exact hcont (mem_keys_of_mem hmem)
    rw [rrset_patches, hfm, List.append_assoc, List.cons_append]
    rw [hkeq, ← replaced_eq_normalized hcomm]
    exact apply_patches_replace_lookup h2

/-- After applying the computed patch list, a key outside the target index is
deleted when owned and untouched otherwise. -/
theorem apply_rrset_patches_lookup_other {target R : ZoneIndex} {owned : List Key} {k : Key}
    (hwfT : ∀ kv ∈ target, kv.1 = (kv.2.name, kv.2.type))
    (hwfR : ∀ kv ∈ R, kv.1 = (kv.2.name, kv.2.type))
    (hndR : (dictKeys R).Nodup)
    (hnk : k ∉ dictKeys target) :
    dictLookup (apply_patches (rrset_patches target R owned) R) k =
      if k ∈ owned then none else dictLookup R k := by
  by_cases how : k ∈ owned
  · rw [if_pos how]
    by_cases hkR : k ∈ dictKeys R
    · rcases exists_dictLookup_of_mem_keys hkR with ⟨v0, hv0⟩
      have hmem0 := mem_of_dictLookup hv0
      have hk0 : k = (v0.name, v0.type) := hwfR _ hmem0
      rcases List.append_of_mem hmem0 with ⟨r1, r2, hsplit⟩
      have hdec : deleteDecision target owned (k, v0) =
          some (Patch.delete v0.name v0.type) := by
        rw [deleteDecision,
          if_pos ⟨how, dictContains_eq_false.mpr hnk⟩]
      have hfd : R.filterMap (deleteDecision target owned) =
          r1.filterMap (deleteDecision target owned) ++ Patch.delete v0.name v0.type ::
            r2.filterMap (deleteDecision target owned) := by
        rw [hsplit, List.filterMap_append, List.filterMap_cons, hdec]
      have hkr2 : k ∉ dictKeys r2 := by
        rw [hsplit] at hndR
        simp only [dictKeys, List.map_append, List.map_cons] at hndR
        have := (List.nodup_append.mp hndR).2.1
        rw [List.nodup_cons] at this
        exact this.1
      have hmemR2 : ∀ kv ∈ r2, kv ∈ R := by
        intro kv hkv
        rw [hsplit]
        exact List.mem_append_right _ (List.mem_cons_of_mem _ hkv)
      have h2 : ∀ p ∈ r2.filterMap (deleteDecision target owned),
          patchKey p ≠ ((v0.name, v0.type) : Key) := by
        intro p hp
        rcases delete_patch_provenance (fun kv hkv => hwfR kv (hmemR2 kv hkv)) hp with
          ⟨kv, hkv, _, hpk, _, _⟩
        intro he
        rw [hpk] at he
        rw [← hk0] at he
        exact hkr2 (he ▸ mem_keys_of_mem hkv)
      rw [rrset_patches, hfd, ← List.append_assoc]
      rw [hk0]
      exact apply_patches_delete_lookup h2
    · have hnp : ∀ p ∈ rrset_patches target R owned, patchKey p ≠ k := by
        intro p hp
        rcases List.mem_append.mp hp with h1 | h1
        · rcases replace_patch_provenance hwfT h1 with ⟨kv, hkv, _, hpk, _⟩
          intro he
          rw [hpk] at he
          exact hnk (he ▸ mem_keys_of_mem hkv)
        · rcases delete_patch_provenance hwfR h1 with ⟨kv, hkv, _, hpk, _, _⟩
          intro he
          rw [hpk] at he
          exact hkR (he ▸ mem_keys_of_mem hkv)
      rw [apply_patches_lookup_notin hnp]
      exact dictLookup_eq_none hkR
  · rw [if_neg how]
    have hnp : ∀ p ∈ rrset_patches target R owned, patchKey p ≠ k := by
      intro p hp
      rcases List.mem_append.mp hp with h1 | h1
      · rcases replace_patch_provenance hwfT h1 with ⟨kv, hkv, _, hpk, _⟩
        intro he
        rw [hpk] at he
        exact hnk (he ▸ mem_keys_of_mem hkv)
      · rcases delete_patch_provenance hwfR h1 with ⟨kv, hkv, _, hpk, hown, _⟩
        intro he
        rw [hpk] at he
        rw [he] at hown
        exact how hown
    exact apply_patches_lookup_notin hnp

theorem extract_soa_ok_intro {m : ZoneIndex} {zid : String} {soa : RRset} {r : DnsRecord}
    (h1 : dictLookup m (zid ++ ".", "SOA") = some soa) (h2 : soa.records = [r]) :
    extract_soa m zid = Except.ok r.content := by
  rw [extract_soa, h1]
  dsimp only
  rw [h2]

/-- The core of the amended C3: after the computed patch list is applied, a
second reconciliation of the same configuration produces an empty patch
list, provided no desired RRset name carries the marker prefix and the SOA
serial is a literal. -/
theorem second_run_empty (records : ZoneRecords) (ttl : Int) (zid : String)
    (d patched R : ZoneIndex)
    (hwfR : ∀ kv ∈ R, kv.1 = (kv.2.name, kv.2.type))
    (hndR : (dictKeys R).Nodup)
    (hnames : ∀ dv ∈ records, sStartsWith (dv.1 ++ ".") markerPre = false)
    (hmk : make_rrsets records ttl = Except.ok d)
    (hps : patch_soa d R zid = Except.ok patched)
    (hlit : (match extract_soa d zid with
             | Except.ok s => (pySplit s).get? 2
             | Except.error _ => none) ≠ some "AUTO") :
    ∃ w, reconcile records ttl
      (apply_patches (rrset_patches (add_heritage_records patched ttl) R
        (get_owned_keys_from_rrsets R).1) R) zid = (Except.ok [], w) := by
  have hwfd : ∀ kv ∈ d, kv.1 = (kv.2.name, kv.2.type) :=
    fun kv h => (make_rrsets_entry hmk kv h).1
  have hcd : ∀ kv ∈ d, kv.2.comments = none :=
    fun kv h => (make_rrsets_entry hmk kv h).2.1
  have hnamesd : ∀ kv ∈ d, sStartsWith kv.2.name markerPre = false := by
    intro kv h
    rcases (make_rrsets_entry hmk kv h).2.2 with ⟨dv, hdv, hn⟩
    rw [hn]
    exact hnames dv hdv
  have hndd : (dictKeys d).Nodup := make_rrsets_nodup_keys hmk
  rcases patch_soa_ok_elim hps with ⟨ds, ss, tk, hde, hse, htk, hbr⟩
  have hna : ¬ tk = "AUTO" := by
    intro he
    rw [hde] at hlit
    rw [he] at htk
    exact hlit htk
  have hset : set_soa d (joinSpace (pySplit ds)) = Except.ok patched := by
    rcases hbr with ⟨hauto, _⟩ | ⟨_, hs2⟩
    · exact absurd hauto hna
    · exact hs2
  have hwfP : ∀ kv ∈ patched, kv.1 = (kv.2.name, kv.2.type) := set_soa_wf hset hwfd
  have hndP : (dictKeys patched).Nodup := by
    rw [set_soa_keys hset]
    exact hndd
  have hcP : ∀ kv ∈ patched, kv.2.comments = none := set_soa_comments hset hcd
  have hnamesP : ∀ kv ∈ patched, sStartsWith kv.2.name markerPre = false :=
    set_soa_names hset hnamesd
  have hwfT : ∀ kv ∈ add_heritage_records patched ttl, kv.1 = (kv.2.name, kv.2.type) := by
    rw [add_heritage_records]
    exact wf_heritage_fold hwfP
  have hndT : (dictKeys (add_heritage_records patched ttl)).Nodup := by
    rw [add_heritage_records]
    exact nodup_keys_heritage_fold hndP
  have hcT : ∀ kv ∈ add_heritage_records patched ttl, kv.2.comments = none := by
    rw [add_heritage_records]
    exact heritage_fold_comments hcP
  have hstT : ∀ kv ∈ add_heritage_records patched ttl,
      sStartsWith kv.2.name markerPre = true →
      kv.2.type = "TXT" ∧ ∀ r ∈ kv.2.records, ∃ t2, r.content = heritageContent t2 ∧
        (sDrop kv.2.name (sLen markerPre), t2) ∈ dictKeys patched := by
    rw [add_heritage_records]
    exact heritage_fold_structure hwfP
      (fun kv h hs => absurd hs (by rw [hnamesP kv h]; exact Bool.false_ne_true))
      (fun kv0 h0 => ⟨mem_keys_of_mem h0, hwfP kv0 h0⟩)
  have hRT : ∀ {k : Key} {v : RRset}, (k, v) ∈ add_heritage_records patched ttl →
      dictLookup (apply_patches (rrset_patches (add_heritage_records patched ttl) R
        (get_owned_keys_from_rrsets R).1) R) k = some (normalized_rrset v) :=
    fun {k v} hm =>
      apply_rrset_patches_lookup_target hwfT hndT hwfR hndR (hcT _ hm) hm
  have hRO : ∀ {k : Key}, k ∉ dictKeys (add_heritage_records patched ttl) →
      dictLookup (apply_patches (rrset_patches (add_heritage_records patched ttl) R
        (get_owned_keys_from_rrsets R).1) R) k =
        if k ∈ (get_owned_keys_from_rrsets R).1 then none else dictLookup R k :=
    fun {k} hk => apply_rrset_patches_lookup_other hwfT hwfR hndR hk
  have hndR2 : (dictKeys (apply_patches (rrset_patches (add_heritage_records patched ttl) R
      (get_owned_keys_from_rrsets R).1) R)).Nodup := nodup_keys_apply_patches hndR
  rcases extract_soa_ok_elim hde with ⟨dsoa, drec, hld, hrd, _⟩
  have hdtype : dsoa.type = "SOA" := by
    have := hwfd _ (mem_of_dictLookup hld)
    exact (congrArg Prod.snd this).symm
  have hlookP : dictLookup patched (zid ++ ".", "SOA") =
      some { dsoa with records := [{ drec with content := joinSpace (pySplit ds) }] } := by
    rw [set_soa_lookup hset, hld, Option.some_bind, adjustSOA, if_pos hdtype, hrd]
  have hzname : (zid ++ ".") = dsoa.name :=
    congrArg Prod.fst (hwfd _ (mem_of_dictLookup hld))
  have hkm : sStartsWith (zid ++ ".") markerPre = false := by
    rw [hzname]
    exact hnamesd _ (mem_of_dictLookup hld)
  have hlookT : dictLookup (add_heritage_records patched ttl) (zid ++ ".", "SOA") =
      some { dsoa with records := [{ drec with content := joinSpace (pySplit ds) }] } := by
    rw [add_heritage_records]
    exact (heritage_fold_lookup_nonmarker hkm).trans hlookP
  have hlookR2soa := hRT (mem_of_dictLookup hlookT)
  have hexR2 : extract_soa (apply_patches (rrset_patches (add_heritage_records patched ttl) R
      (get_owned_keys_from_rrsets R).1) R) zid =
      Except.ok ({ drec with content := joinSpace (pySplit ds) } : DnsRecord).content :=
    extract_soa_ok_intro hlookR2soa (sortRecords_singleton _)
  have hps2 : patch_soa d (apply_patches (rrset_patches (add_heritage_records patched ttl) R
      (get_owned_keys_from_rrsets R).1) R) zid = Except.ok patched :=
    patch_soa_ok_intro_lit hde hexR2 htk hna hset
  have howned : ∀ kv ∈ add_heritage_records patched ttl,
      kv.1 ∈ (get_owned_keys_from_rrsets (apply_patches
        (rrset_patches (add_heritage_records patched ttl) R
          (get_owned_keys_from_rrsets R).1) R)).1 := by
    intro kv hkv
    by_cases hsw : sStartsWith kv.2.name markerPre = true
    · have hlk := hRT (show ((kv.1, kv.2) : Key × RRset) ∈ _ by simpa using hkv)
      have hmem2 := mem_of_dictLookup hlk
      have htxt : kv.2.type = "TXT" := (hstT kv hkv hsw).1
      have hself : ((normalized_rrset kv.2).name, "TXT") ∈
          (ownedOfTXT (normalized_rrset kv.2)).1 :=
        ownedOfTXT_self
          (show sStartsWith (normalized_rrset kv.2).name markerPre = true from hsw)
      have hke : kv.1 = ((normalized_rrset kv.2).name, "TXT") := by
        rw [hwfT kv hkv, htxt]
        rfl
      rw [hke]
      exact owned_keys_intro hmem2
        (show (normalized_rrset kv.2).type = "TXT" from htxt) hself
    · have hswf : sStartsWith kv.2.name markerPre = false := by
        cases hb : sStartsWith kv.2.name markerPre
        · rfl
        · exact absurd hb hsw
      have hlkT : dictLookup (add_heritage_records patched ttl) kv.1 = some kv.2 :=
        dictLookup_of_mem (by simpa using hkv) hndT
      have hlkP : dictLookup patched kv.1 = some kv.2 := by
        rw [add_heritage_records] at hlkT
        rw [heritage_fold_lookup_nonmarker] at hlkT
        · exact hlkT
        · rw [congrArg Prod.fst (hwfT kv hkv)]
          exact hswf
      have hmemP : (kv.1, kv.2) ∈ patched := mem_of_dictLookup hlkP
      rcases heritage_marker_of_mem hwfP hmemP with ⟨v2, hlm, hn2, ht2, hr2⟩
      have hmemT2 : ((markerPre ++ kv.2.name, "TXT"), v2) ∈
          add_heritage_records patched ttl := mem_of_dictLookup hlm
      have hlkR2 := hRT hmemT2
      have hmem2 := mem_of_dictLookup hlkR2
      have hrecmem : heritageRec kv.2.type ∈ (normalized_rrset v2).records :=
        mem_sortRecords.mpr hr2
      have hclaim := ownedOfTXT_claim
        (show sStartsWith (normalized_rrset v2).name markerPre = true from by
          show sStartsWith v2.name markerPre = true
          rw [hn2]
          exact sStartsWith_self_append _ _)
        hrecmem (heritage_starts_pre kv.2.type) (heritage_starts_quote kv.2.type)
      have hx : kv.1 ∈ (ownedOfTXT (normalized_rrset v2)).1 := by
        have he1 : sDrop (normalized_rrset v2).name (sLen markerPre) = kv.2.name := by
          show sDrop v2.name (sLen markerPre) = kv.2.name
          rw [hn2, sDrop_self_append]
        have he2 : ownedTypeOf (heritageRec kv.2.type).content = kv.2.type := by
          show ownedTypeOf (heritageContent kv.2.type) = kv.2.type
          exact ownedTypeOf_heritageContent _
        rw [he1, he2] at hclaim
        rw [hwfT kv hkv]
        exact hclaim
      exact owned_keys_intro hmem2
        (show (normalized_rrset v2).type = "TXT" from ht2) hx
  have hconf2 : conflicting_rrset_list (add_heritage_records patched ttl)
      (apply_patches (rrset_patches (add_heritage_records patched ttl) R
        (get_owned_keys_from_rrsets R).1) R)
      (get_owned_keys_from_rrsets (apply_patches
        (rrset_patches (add_heritage_records patched ttl) R
          (get_owned_keys_from_rrsets R).1) R)).1 = [] := by
    rw [conflicting_rrset_list, List.filter_eq_nil_iff]
    intro kv hkv
    rw [conflictPred]
    simp [howned kv hkv]
  have hownsub : ∀ x ∈ (get_owned_keys_from_rrsets (apply_patches
      (rrset_patches (add_heritage_records patched ttl) R
        (get_owned_keys_from_rrsets R).1) R)).1,
      x ∈ dictKeys (add_heritage_records patched ttl) := by
    intro x hx
    rcases owned_keys_elim hx with ⟨kv3, hm3, ht3, hx3⟩
    have hlk3 : dictLookup (apply_patches (rrset_patches (add_heritage_records patched ttl) R
        (get_owned_keys_from_rrsets R).1) R) kv3.1 = some kv3.2 :=
      dictLookup_of_mem (by simpa using hm3) hndR2
    by_cases hk3 : kv3.1 ∈ dictKeys (add_heritage_records patched ttl)
    · rcases exists_dictLookup_of_mem_keys hk3 with ⟨u, hu⟩
      have humem : (kv3.1, u) ∈ add_heritage_records patched ttl := mem_of_dictLookup hu
      have hlku := hRT humem
      rw [hlk3] at hlku
      injection hlku with hveq
      rcases ownedOfTXT_elim hx3 with ⟨hsw3, hcases⟩
      have hname3 : kv3.2.name = u.name := by
        rw [hveq]
        rfl
      have hswu : sStartsWith u.name markerPre = true := by
        rw [← hname3]
        exact hsw3
      obtain ⟨hut, hclaims⟩ := hstT _ humem hswu
      rcases hcases with hself | ⟨r, hrmem, hxeq⟩
      · rw [hself, hname3]
        have : ((u.name, "TXT") : Key) = kv3.1 := by
          rw [hwfT _ humem, hut]
        rw [this]
        exact hk3
      · rw [hxeq]
        have hrmem2 : r ∈ u.records := by
          rw [hveq] at hrmem
          exact mem_sortRecords.mp hrmem
        rcases hclaims r hrmem2 with ⟨t2, hc2, hd2⟩
        have hkey : ((sDrop kv3.2.name (sLen markerPre), ownedTypeOf r.content) : Key) =
            (sDrop u.name (sLen markerPre), t2) := by
          rw [hname3, hc2, ownedTypeOf_heritageContent]
        rw [hkey]
        rw [add_heritage_records]
        exact heritage_fold_keys_mono hd2
    · have hlkO := hRO hk3
      rw [hlk3] at hlkO
      by_cases howr : kv3.1 ∈ (get_owned_keys_from_rrsets R).1
      · rw [if_pos howr] at hlkO
        cases hlkO
      · rw [if_neg howr] at hlkO
        have hmemR : (kv3.1, kv3.2) ∈ R := mem_of_dictLookup hlkO.symm
        rcases ownedOfTXT_elim hx3 with ⟨hsw3, _⟩
        have hselfR : ((kv3.2.name, "TXT") : Key) ∈ (get_owned_keys_from_rrsets R).1 :=
          owned_keys_intro hmemR ht3 (ownedOfTXT_self hsw3)
        have hke : kv3.1 = (kv3.2.name, "TXT") := by
          rw [hwfR _ hmemR, ht3]
        rw [hke] at howr
        exact absurd hselfR howr
  have hrep2 : (add_heritage_records patched ttl).filterMap
      (replaceDecision (apply_patches (rrset_patches (add_heritage_records patched ttl) R
        (get_owned_keys_from_rrsets R).1) R)) = [] := by
    rw [List.filterMap_eq_nil_iff]
    intro kv hkv
    rw [replaceDecision, if_pos]
    exact mem_values_of_dictLookup (hRT (show ((kv.1, kv.2) : Key × RRset) ∈ _ by simpa using hkv))
  have hdel2 : (apply_patches (rrset_patches (add_heritage_records patched ttl) R
      (get_owned_keys_from_rrsets R).1) R).filterMap
      (deleteDecision (add_heritage_records patched ttl)
        (get_owned_keys_from_rrsets (apply_patches
          (rrset_patches (add_heritage_records patched ttl) R
            (get_owned_keys_from_rrsets R).1) R)).1) = [] := by
    rw [List.filterMap_eq_nil_iff]
    intro kv hkv
    rw [deleteDecision, if_neg]
    rintro ⟨h1, h2⟩
    rw [dictContains_eq_false] at h2
    exact h2 (hownsub _ h1)
  refine ⟨(get_owned_keys_from_rrsets (apply_patches
    (rrset_patches (add_heritage_records patched ttl) R
      (get_owned_keys_from_rrsets R).1) R)).2, ?_⟩
  simp only [reconcile, hmk, hps2, hconf2, List.isEmpty_nil, if_true]
  rw [rrset_patches, hrep2, hdel2]
  rfl

theorem reconcile_ok_elim {records : ZoneRecords} {ttl : Int} {R : ZoneIndex} {zid : String}
    {ps : List Patch} {out : List String}
    (h : reconcile records ttl R zid = (Except.ok ps, out)) :
    ∃ d patched, make_rrsets records ttl = Except.ok d ∧
      patch_soa d R zid = Except.ok patched ∧
      ps = rrset_patches (add_heritage_records patched ttl) R
        (get_owned_keys_from_rrsets R).1 := by
  rw [reconcile] at h
  cases hmk : make_rrsets records ttl with
  | error e =>
    obtain ⟨e1, e2⟩ := e
    rw [hmk] at h
    dsimp only at h
    rw [Prod.mk.injEq] at h
    cases h.1
  | ok d =>
    rw [hmk] at h
    dsimp only at h
    cases hpsr : patch_soa d R zid with
    | error e =>
      rw [hpsr] at h
      dsimp only at h
      rw [Prod.mk.injEq] at h
      cases h.1
    | ok patched =>
      rw [hpsr] at h
      dsimp only at h
      by_cases hie : (conflicting_rrset_list (add_heritage_records patched ttl) R
          (get_owned_keys_from_rrsets R).1).isEmpty = true
      · rw [if_pos hie] at h
        rw [Prod.mk.injEq] at h
        injection h.1 with he
        exact ⟨d, patched, rfl, hpsr, he.symm⟩
      · rw [if_neg hie] at h
        rw [Prod.mk.injEq] at h
        cases h.1

/-- C3 (amended): for a desired configuration whose SOA serial token is a
literal (not `AUTO`) and none of whose RRset names begins with the marker
prefix `_ansible-pdns-api.`, whenever a run reconciles it against a remote
zone state and computes a patch list `ps`, applying `ps` to the remote state
(REPLACE installs the carried RRset under its key, DELETE removes its key)
and reconciling again yields an empty patch list.  Without the
no-marker-name proviso the claim fails (`reconcile_not_idempotent`): a
hand-written heritage marker makes the second run delete a foreign key. -/
theorem reconcile_idempotent (records : ZoneRecords) (ttl : Int) (remoteList : List RRset)
    (zid : String) (ps : List Patch) (out : List String)
    (hnames : ∀ dv ∈ records, sStartsWith (dv.1 ++ ".") markerPre = false)
    (hlit : (match make_rrsets records ttl with
             | Except.ok d =>
               (match extract_soa d zid with
                | Except.ok s => (pySplit s).get? 2
                | Except.error _ => none)
             | Except.error _ => none) ≠ some "AUTO")
    (hrun : reconcile records ttl (fetch_index remoteList) zid = (Except.ok ps, out)) :
    ∃ w, reconcile records ttl (apply_patches ps (fetch_index remoteList)) zid =
      (Except.ok [], w) := by
  rcases reconcile_ok_elim hrun with ⟨d, patched, hmk, hps, hpseq⟩
  subst hpseq
  have hwfR : ∀ kv ∈ fetch_index remoteList, kv.1 = (kv.2.name, kv.2.type) :=
    fun kv h => (index_rrsets_wf h).1
  have hndR : (dictKeys (fetch_index remoteList)).Nodup := nodup_keys_index_rrsets _
  have hlit2 : (match extract_soa d zid with
               | Except.ok s => (pySplit s).get? 2
               | Except.error _ => none) ≠ some "AUTO" := by
    rw [hmk] at hlit
    exact hlit
  exact second_run_empty records ttl zid d patched (fetch_index remoteList)
    hwfR hndR hnames hmk hps hlit2

/-- Witness for the amended C3: the simple SOA-only configuration against
`exRemoteList` computes `exPatchesSimple`, and the second run is empty. -/
theorem reconcile_idempotent_witness :
    ∃ w, reconcile exCfgSimple 3600 (apply_patches exPatchesSimple (fetch_index exRemoteList))
      "example.com" = (Except.ok [], w) :=
  reconcile_idempotent exCfgSimple 3600 exRemoteList "example.com" exPatchesSimple []
    (by decide) (by decide) (by decide)

end Upsert
